import Mathlib

/-!
Verification development for the document-composition and artifact-addressing
subsystem of the gcloud automation backend.

Strings are modelled as `List Char` (`Str`), so that every operation is an
executable structural recursion that the kernel can evaluate.  Python string
operations (`in`, `replace`, `strip`, `re.sub` on the concrete character
classes used by the source, `str.lower` on ASCII tag/style names) are
modelled character-by-character; `\w` and `\s` are modelled over their ASCII
meaning, which covers every character class decision the source makes on the
inputs of interest.
-/

namespace GCloud

abbrev Str := List Char

/-- ASCII lower-casing, modelling Python `str.lower` on the ASCII tag and
marker strings the source compares. -/
def lowerStr (s : Str) : Str := s.map Char.toLower

/-- Python `\s` (ASCII): space, tab, newline, carriage return, vertical tab,
form feed. -/
def isPySpace (c : Char) : Bool :=
  c = ' ' || c = '\t' || c = '\n' || c = '\r' || c = '\x0b' || c = '\x0c'

/-- Python `\w` (ASCII): letters, digits and underscore. -/
def isPyWordChar (c : Char) : Bool :=
  c.isAlpha || c.isDigit || c = '_'

/-- Python `str.strip()`: drop leading and trailing whitespace. -/
def pyStrip (s : Str) : Str :=
  ((s.dropWhile isPySpace).reverse.dropWhile isPySpace).reverse

/-- Worker for `collapseWs`: `prevSpace` records whether the previously
emitted character was the collapsed space of a whitespace run. -/
def collapseWsAux : Bool → Str → Str
  | _, [] => []
  | prevSpace, c :: rest =>
    if isPySpace c then
      (if prevSpace then collapseWsAux true rest else ' ' :: collapseWsAux true rest)
    else c :: collapseWsAux false rest

/-- Python `re.sub(r"\s+", " ", s)`: every maximal whitespace run becomes one
space. -/
def collapseWs (s : Str) : Str := collapseWsAux false s

/-- Bool-valued "pattern occurs as a contiguous substring" (Python `in`). -/
def containsSub (pat : Str) : Str → Bool
  | [] => pat.isEmpty
  | c :: rest => pat.isPrefixOf (c :: rest) || containsSub pat rest

/-!
## Artifact addressing (`app/azure/storage_paths.py`)
-/

/-- `_normalise_service_folder`: `re.sub(r"[^\w\s\-]", "", s).strip()`, then
collapse whitespace runs to single spaces, then replace spaces by
underscores. -/
def normaliseServiceFolder (s : Str) : Str :=
  (collapseWs (pyStrip (s.filter (fun c => isPyWordChar c || isPySpace c || c = '-')))).map
    (fun c => if c = ' ' then '_' else c)

/-- The filename built inside `build_service_blob_key`:
`f"PA GC{gcloud_version} {doc_type} {service_name}"`, optionally `+ "_draft"`,
then `+ f".{extension}"`. -/
def serviceFilename (serviceName docType gcloudVersion ext : Str) (draft : Bool) : Str :=
  "PA GC".data ++ gcloudVersion ++ " ".data ++ docType ++ " ".data ++ serviceName
    ++ (if draft then "_draft".data else []) ++ ".".data ++ ext

/-- Split a string at every `'/'` (like `"a/b".split('/')`); always returns at
least one (possibly empty) component. -/
def splitOnSlash : Str → List Str
  | [] => [[]]
  | c :: rest =>
    match splitOnSlash rest with
    | [] => [[]]
    | h :: t => if c = '/' then [] :: h :: t else (c :: h) :: t

/-- Join path components with `'/'`. -/
def joinSlash : List Str → Str
  | [] => []
  | [x] => x
  | x :: y :: t => x ++ '/' :: joinSlash (y :: t)

/-- A component `pathlib` keeps: non-empty and not the spurious `"."`. -/
def keepComponent (c : Str) : Bool := !c.isEmpty && c ≠ ['.']

/-- `str(PurePosixPath(raw))` for a relative `raw`: split on `'/'`, drop empty
and `"."` components, re-join (empty parse renders as `"."`).  None of the
segments `build_service_blob_key` passes can begin with `'/'` (each starts
with a fixed letter or is slash-free), so `PurePosixPath`'s absolute-segment
reset can never trigger and this join-then-normalise model is faithful. -/
def posixStr (raw : Str) : Str :=
  match (splitOnSlash raw).filter keepComponent with
  | [] => ['.']
  | comps => joinSlash comps

/-- The raw joined path `build_service_blob_key` hands to `PurePosixPath`. -/
def keyRaw (serviceName docType gcloudVersion lot ext : Str) (draft : Bool) : Str :=
  "GCloud ".data ++ gcloudVersion
    ++ "/PA Services/Cloud Support Services LOT ".data ++ lot
    ++ "/".data ++ normaliseServiceFolder serviceName
    ++ "/".data ++ serviceFilename serviceName docType gcloudVersion ext draft

/-- The draft-independent part of `keyRaw`: everything before the draft
suffix and the `.{extension}` tail. -/
def keyStem (serviceName docType gcloudVersion lot : Str) : Str :=
  "GCloud ".data ++ gcloudVersion
    ++ "/PA Services/Cloud Support Services LOT ".data ++ lot
    ++ "/".data ++ normaliseServiceFolder serviceName
    ++ "/".data ++ "PA GC".data ++ gcloudVersion ++ " ".data ++ docType ++ " ".data
    ++ serviceName

/-- `build_service_blob_key` from `app/azure/storage_paths.py`: the
`PurePosixPath` of
`GCloud {version} / PA Services / Cloud Support Services LOT {lot} /
 {normalised service folder} / {filename}` rendered as a string. -/
def build_service_blob_key (serviceName docType gcloudVersion lot ext : Str)
    (draft : Bool) : Str :=
  posixStr (keyRaw serviceName docType gcloudVersion lot ext draft)

/-- Folder normalisation written from the spec's (amended) words: keep
letters, digits, underscore, whitespace and hyphen; trim edge whitespace;
collapse internal whitespace runs to single spaces; map spaces to
underscores. -/
def specFolderNormalise (s : Str) : Str :=
  (collapseWs (pyStrip (s.filter
    (fun c => c.isAlpha || c.isDigit || c = '_' || isPySpace c || c = '-')))).map
    (fun c => if c = ' ' then '_' else c)

/-- The claim's original wording, taken literally: strip characters outside
letters, digits, whitespace and hyphen (underscore not kept, no edge trim),
collapse whitespace runs to single spaces, map spaces to underscores. -/
def claimFolderNormalise (s : Str) : Str :=
  (collapseWs (s.filter (fun c => c.isAlpha || c.isDigit || isPySpace c || c = '-'))).map
    (fun c => if c = ' ' then '_' else c)

/-!
## Placeholder substitution (`document_generator.py`)

Python `str.replace(old, new)`: one left-to-right scan, non-overlapping
matches.  Implemented with explicit fuel (the length of the subject string)
so that the definition is a structural recursion the kernel can evaluate.
The source only ever calls it with the five concrete non-empty marker
strings, so the empty-pattern case never arises; the model leaves the string
unchanged for an empty pattern.
-/

/-- Fuel-indexed worker for `pyReplace`. -/
def pyReplaceFuel (pat rep : Str) : Nat → Str → Str
  | 0, s => s
  | _ + 1, [] => []
  | fuel + 1, c :: rest =>
    if pat.isEmpty then c :: rest
    else if pat.isPrefixOf (c :: rest) then
      rep ++ pyReplaceFuel pat rep fuel ((c :: rest).drop pat.length)
    else c :: pyReplaceFuel pat rep fuel rest

/-- Python `s.replace(pat, rep)`. -/
def pyReplace (pat rep s : Str) : Str := pyReplaceFuel pat rep s.length s

/-- One node's pass of `_replace_text_in_all_wt` /
`_replace_in_saved_docx`: `for old, new in mapping.items(): if old in
replaced: replaced = replaced.replace(old, new)`. -/
def applyMapping (mapping : List (Str × Str)) (s : Str) : Str :=
  mapping.foldl (fun acc p => if containsSub p.1 acc then pyReplace p.1 p.2 acc else acc) s

/-- The placeholder mapping `generate_service_description` passes to both
substitution passes: five service-name markers, each mapped to the title
(dict insertion order preserved). -/
def serviceNameMapping (title : Str) : List (Str × Str) :=
  [("ENTER SERVICE NAME HERE".data, title),
   ("Enter Service Name Here".data, title),
   ("enter service name here".data, title),
   ("Add Title".data, title),
   ("\x7b\x7bSERVICE_NAME\x7d\x7d".data, title)]

/-- `_replace_text_in_all_wt`: the document tree's text nodes (every `w:t`
and `a:t`, i.e. including drawing/shape text), each rewritten by the mapping.
A node whose text is empty is skipped by the source's `if t.text:` guard, but
rewriting the empty string is the identity, so mapping over all nodes is the
same function. -/
def replaceTextInAllWt (mapping : List (Str × Str)) (tree : List Str) : List Str :=
  tree.map (applyMapping mapping)

/-- A package part name that `_replace_in_saved_docx` rewrites:
`item.filename.startswith('word/') and item.filename.endswith('.xml')`. -/
def isBodyPartName (name : Str) : Bool :=
  "word/".data.isPrefixOf name && ".xml".data.isSuffixOf name

/-- `_replace_in_saved_docx`: every XML part under `word/` is decoded,
rewritten by the mapping and re-written; other parts are copied byte-for-byte.
Parts are modelled post-decode as text; a part whose decode fails is copied
unchanged by the source and is therefore outside the mapping's reach in both
passes. -/
def replaceInSavedDocx (mapping : List (Str × Str)) (parts : List (Str × Str)) :
    List (Str × Str) :=
  parts.map (fun p => if isBodyPartName p.1 then (p.1, applyMapping mapping p.2) else p)

/-!
## Document model (`document_generator.py`)

The document body is the ordered list of top-level block nodes (`w:p`
paragraphs and `w:tbl` tables).  Python mutates `lxml` elements in place and
addresses them by object identity; the model gives every node a numeric id
(fresh ids issued by a counter in `DState`) and re-implements the three
mutation primitives the source uses: insert-after-element (`addnext`),
append-at-document-end (`doc.add_paragraph` / `doc.add_table`) and
append-run-to-paragraph (`add_run`).  Presentation-only attributes the
claims never mention (spacing, font size, table style) are elided. -/

structure Run where
  text : Str
  bold : Bool
  italic : Bool
  color : Option (Nat × Nat × Nat)
  brk : Bool
  img : Option Str
deriving DecidableEq

/-- A plain text run. -/
def mkRun (t : Str) : Run := ⟨t, false, false, none, false, none⟩

/-- The red bold ordinal-prefix run of a numbered list item
(`RGBColor(192, 0, 0)`, bold). -/
def numRun (t : Str) : Run := ⟨t, true, false, some (192, 0, 0), false, none⟩

/-- The black body-text run of a numbered list item (`RGBColor(0, 0, 0)`). -/
def itemRun (t : Str) : Run := ⟨t, false, false, some (0, 0, 0), false, none⟩

/-- `render_inline` for `strong`/`b`: the element's text, bold. -/
def boldRun (t : Str) : Run := ⟨t, true, false, none, false, none⟩

/-- `render_inline` for `em`/`i`: the element's text, italic. -/
def italicRun (t : Str) : Run := ⟨t, false, true, none, false, none⟩

/-- `render_inline` for `br`: `run.add_break()`. -/
def breakRun : Run := ⟨[], false, false, none, true, none⟩

/-- A run holding a picture (`run.add_picture`). -/
def imgRun (data : Str) : Run := ⟨[], false, false, none, false, some data⟩

inductive Block where
  | para (style : Option Str) (runs : List Run)
  | table (cells : List (List Str))
deriving DecidableEq

structure PNode where
  id : Nat
  blk : Block
deriving DecidableEq

structure DState where
  body : List PNode
  nextId : Nat
deriving DecidableEq

/-- Well-formedness of the id discipline: ids are pairwise distinct and the
fresh counter is above all of them (as maintained by every operation). -/
def wfState (st : DState) : Prop :=
  (st.body.map PNode.id).Nodup ∧ ∀ n ∈ st.body, n.id < st.nextId

instance : DecidablePred wfState := fun st => by
  unfold wfState; infer_instance

/-- `element.addnext(new)`: insert `n` directly after the (unique) node with
id `pid`.  In the source the target element always exists; the empty-body
fallback (`[n]`) is unreachable in every modelled flow. -/
def insertAfterId (pid : Nat) (n : PNode) : List PNode → List PNode
  | [] => [n]
  | m :: rest => if m.id = pid then m :: n :: rest else m :: insertAfterId pid n rest

/-- `paragraph.add_run(r)`: append a run to the paragraph with id `pid`. -/
def addRunAtId (pid : Nat) (r : Run) : List PNode → List PNode :=
  List.map (fun n =>
    if n.id = pid then
      match n.blk with
      | Block.para sty rs => ⟨n.id, Block.para sty (rs ++ [r])⟩
      | _ => n
    else n)

/-- The block built by `_insert_paragraph_after` (and `doc.add_paragraph`):
a paragraph with one text run when the text is non-empty, and the given
style (python-docx leaves the style unset when `style_name` is falsy). -/
def paraOf (sty : Option Str) (text : Str) : Block :=
  Block.para sty (if text.isEmpty then [] else [mkRun text])

/-- `_insert_paragraph_after(paragraph, text, style_name)`: create a fresh
paragraph right after the node with id `pid`; returns the new state and the
new paragraph's id. -/
def insertParagraphAfter (st : DState) (pid : Nat) (text : Str) (sty : Option Str) :
    DState × Nat :=
  (⟨insertAfterId pid ⟨st.nextId, paraOf sty text⟩ st.body, st.nextId + 1⟩, st.nextId)

/-- `doc.add_paragraph(text, style)`: append a paragraph at document end. -/
def docAddParagraph (st : DState) (text : Str) (sty : Option Str) : DState × Nat :=
  (⟨st.body ++ [⟨st.nextId, paraOf sty text⟩], st.nextId + 1⟩, st.nextId)

/-- State-level wrapper for `addRunAtId`. -/
def addRun (st : DState) (pid : Nat) (r : Run) : DState :=
  ⟨addRunAtId pid r st.body, st.nextId⟩

/-- `doc.add_table(rows, cols)` appends the table at the document end. -/
def docAddTable (st : DState) (cells : List (List Str)) : DState :=
  ⟨st.body ++ [⟨st.nextId, Block.table cells⟩], st.nextId + 1⟩

/-- A paragraph as `doc.paragraphs` exposes it: style name and runs. -/
structure ParaView where
  style : Option Str
  runs : List Run
deriving DecidableEq

/-- `doc.paragraphs`: the top-level paragraphs of the body, in order. -/
def docParagraphs (body : List PNode) : List ParaView :=
  body.filterMap (fun n =>
    match n.blk with
    | Block.para sty rs => some ⟨sty, rs⟩
    | _ => none)

/-- `p.text`: concatenation of the paragraph's run texts. -/
def runsText (rs : List Run) : Str := (rs.map Run.text).flatten

/-- `p.text` of a paragraph view. -/
def paraText (p : ParaView) : Str := runsText p.runs

/-- `p.style and p.style.name.startswith('Heading')`. -/
def isHeadingStyle : Option Str → Bool
  | some s => "Heading".data.isPrefixOf s
  | none => false

/-- `_find_heading_index` (used by `_remove_sections`): index of the first
paragraph whose style starts with `Heading` and whose text contains
`heading_text` case-sensitively. -/
def findHeadingIndexAux (ht : Str) : Nat → List ParaView → Option Nat
  | _, [] => none
  | i, p :: rest =>
    if isHeadingStyle p.style && containsSub ht (paraText p) then some i
    else findHeadingIndexAux ht (i + 1) rest

/-- `_find_heading_index(doc, heading_text)`. -/
def findHeadingIndex (paras : List ParaView) (ht : Str) : Option Nat :=
  findHeadingIndexAux ht 0 paras

/-- `_find_heading_element` (used by `_extract_heading_block`): same search
but with `heading_text.lower() in p.text.lower()`, i.e. case-insensitive. -/
def findHeadingElementAux (ht : Str) : Nat → List ParaView → Option (Nat × ParaView)
  | _, [] => none
  | i, p :: rest =>
    if isHeadingStyle p.style && containsSub (lowerStr ht) (lowerStr (paraText p)) then
      some (i, p)
    else findHeadingElementAux ht (i + 1) rest

/-- `_find_heading_element(doc, heading_text)` (`(None, None)` becomes
`none`). -/
def findHeadingElement (paras : List ParaView) (ht : Str) : Option (Nat × ParaView) :=
  findHeadingElementAux ht 0 paras

/-!
## HTML subset (`_insert_html`)

`BeautifulSoup`'s parsed forest is taken as the input (`html.parser`
lower-cases tag names while parsing; the model stores names as parsed and
applies exactly the `.lower()` / exact comparisons the source performs).
An element carries its `src` attribute when present (only consulted for
`img`). -/

mutual
inductive HtmlNode where
  | text (s : Str)
  | elem (name : Str) (src : Option Str) (children : HtmlForest)
inductive HtmlForest where
  | nil
  | cons (hd : HtmlNode) (tl : HtmlForest)
end

mutual
/-- `node.get_text()`: concatenation of every descendant text node. -/
def getText : HtmlNode → Str
  | HtmlNode.text s => s
  | HtmlNode.elem _ _ cs => getTextF cs
/-- `get_text` over a forest of siblings. -/
def getTextF : HtmlForest → Str
  | HtmlForest.nil => []
  | HtmlForest.cons h t => getText h ++ getTextF t
end

/-- Forest concatenation (used to state positional hypotheses). -/
def appendF : HtmlForest → HtmlForest → HtmlForest
  | HtmlForest.nil, g => g
  | HtmlForest.cons h t, g => HtmlForest.cons h (appendF t g)

/-- Number of top-level nodes of a forest. -/
def forestLen : HtmlForest → Nat
  | HtmlForest.nil => 0
  | HtmlForest.cons _ t => forestLen t + 1

/-- One child step of `add_paragraph_with_inlines`: the accumulator carries
the state and the paragraph currently receiving runs (the source rebinds `p`
to the image paragraph after an `img` child, so later inline content lands
in that paragraph).  An `img` child with a falsy `src` contributes
nothing. -/
def awiImg (fetch : Str → Option Str) (acc : DState × Nat) : Option Str → DState × Nat
  | none => acc
  | some u =>
    if u.isEmpty then acc
    else
      let pr := insertParagraphAfter acc.1 acc.2 [] none
      match fetch u with
      | some pic => (addRun pr.1 pr.2 (imgRun pic), pr.2)
      | none =>
        (addRun pr.1 pr.2 (mkRun ("[image: ".data ++ u ++ "]".data)), pr.2)

/-- Dispatch on one inline child (see `awiImg` for the `img` case). -/
def awiChild (fetch : Str → Option Str) (acc : DState × Nat) (child : HtmlNode) :
    DState × Nat :=
  match child with
  | HtmlNode.text s => (addRun acc.1 acc.2 (mkRun s), acc.2)
  | HtmlNode.elem nm src cs =>
    if nm = "strong".data ∨ nm = "b".data then
      (addRun acc.1 acc.2 (boldRun (getTextF cs)), acc.2)
    else if nm = "em".data ∨ nm = "i".data then
      (addRun acc.1 acc.2 (italicRun (getTextF cs)), acc.2)
    else if nm = "br".data then
      (addRun acc.1 acc.2 breakRun, acc.2)
    else if nm = "img".data then awiImg fetch acc src
    else (addRun acc.1 acc.2 (mkRun (getTextF cs)), acc.2)

/-- The children loop of `add_paragraph_with_inlines`. -/
def awiChildren (fetch : Str → Option Str) (acc : DState × Nat) :
    HtmlForest → DState × Nat
  | HtmlForest.nil => acc
  | HtmlForest.cons c t => awiChildren fetch (awiChild fetch acc c) t

/-- `add_paragraph_with_inlines(text_or_node, style_name)`: insert a fresh
paragraph directly after `afterId` (the renderer's fixed `after_para`), then
fill it from a plain string or from an element's children; returns the
paragraph holding the most recent content.  (The source only passes strings
or elements; a bare text node behaves as its string.) -/
def awi (fetch : Str → Option Str) (st : DState) (afterId : Nat) (inp : Sum Str HtmlNode)
    (sty : Option Str) : DState × Nat :=
  let pr := insertParagraphAfter st afterId [] sty
  match inp with
  | Sum.inl s => (addRun pr.1 pr.2 (mkRun s), pr.2)
  | Sum.inr (HtmlNode.text s) => (addRun pr.1 pr.2 (mkRun s), pr.2)
  | Sum.inr (HtmlNode.elem _ _ cs) => awiChildren fetch (pr.1, pr.2) cs

/-- The `li` loop of the `ul`/`ol` branch
(`el.find_all('li', recursive=False)` then insert after the running
`last`). -/
def ulLiLoop (sty : Str) (acc : DState × Nat) : HtmlForest → DState × Nat
  | HtmlForest.nil => acc
  | HtmlForest.cons c t =>
    match c with
    | HtmlNode.elem nm _ _ =>
      if nm = "li".data then
        ulLiLoop sty (insertParagraphAfter acc.1 acc.2 (getText c) (some sty)) t
      else ulLiLoop sty acc t
    | _ => ulLiLoop sty acc t

/-- Top-level dispatch loop of `_insert_html`.  `afterId` is the `after_para`
argument the paragraph builder always inserts after; `last` is the running
`last` variable. -/
def insertHtmlAux (fetch : Str → Option Str) (afterId : Nat) :
    DState → Nat → HtmlForest → DState × Nat
  | st, last, HtmlForest.nil => (st, last)
  | st, last, HtmlForest.cons (HtmlNode.text s) rest =>
    if (pyStrip s).isEmpty then insertHtmlAux fetch afterId st last rest
    else
      let r := awi fetch st afterId (Sum.inl s) none
      insertHtmlAux fetch afterId r.1 r.2 rest
  | st, last, HtmlForest.cons (HtmlNode.elem nm src cs) rest =>
    let l := lowerStr nm
    if l = "h3".data then
      let r := awi fetch st afterId (Sum.inr (HtmlNode.elem nm src cs)) (some "Heading 3".data)
      insertHtmlAux fetch afterId r.1 r.2 rest
    else if l = "p".data then
      let r := awi fetch st afterId (Sum.inr (HtmlNode.elem nm src cs)) (some "Normal".data)
      insertHtmlAux fetch afterId r.1 r.2 rest
    else if l = "ul".data ∨ l = "ol".data then
      let sty := if l = "ul".data then "List Bullet".data else "List Number".data
      let r := ulLiLoop sty (st, last) cs
      insertHtmlAux fetch afterId r.1 r.2 rest
    else if l = "br".data then
      let r := insertParagraphAfter st last [] none
      insertHtmlAux fetch afterId r.1 r.2 rest
    else
      let r := awi fetch st afterId (Sum.inr (HtmlNode.elem nm src cs)) (some "Normal".data)
      insertHtmlAux fetch afterId r.1 r.2 rest

/-- `_insert_html(doc, after_para, html)`: renders the parsed forest,
returning the final `last` paragraph id.  `fetch` models image
acquisition+decoding (`requests.get`/base64/`add_picture`); `none` is any
failure of that pipeline. -/
def insertHtml (fetch : Str → Option Str) (st : DState) (afterId : Nat)
    (nodes : HtmlForest) : DState × Nat :=
  insertHtmlAux fetch afterId st afterId nodes

/-!
## Composer (`_insert_full_content_block`, `_insert_numbered_list_block`,
`_insert_service_definition`)
-/

/-- `f"{idx}. "`. -/
def numText (i : Nat) : Str := (toString i).data ++ ". ".data

/-- Item loop of `_insert_numbered_list_block`: each item becomes a fresh
unstyled paragraph with a red bold ordinal run and a black text run. -/
def insertNumberedGo (st : DState) (cur : Option Nat) (i : Nat) :
    List Str → DState × Option Nat
  | [] => (st, cur)
  | item :: rest =>
    let pr := match cur with
      | some c => insertParagraphAfter st c [] none
      | none => docAddParagraph st [] none
    let st2 := addRun pr.1 pr.2 (numRun (numText i))
    let st3 := addRun st2 pr.2 (itemRun item)
    insertNumberedGo st3 (some pr.2) (i + 1) rest

/-- `_insert_numbered_list_block(doc, after_para, items)`. -/
def insertNumberedListBlock (st : DState) (cur : Option Nat) (items : List Str) :
    DState × Option Nat :=
  insertNumberedGo st cur 1 items

/-- A service-definition content block as submitted by the caller.
`content` is `none` for a falsy content string, otherwise the parsed forest
of the (non-empty) HTML string. -/
structure ContentBlock where
  subtitle : Str
  content : Option HtmlForest
  images : List Str
  table : Option (List (List Str))

/-- The composer's local `add_para` helper: insert after the running cursor,
or append at document end when the cursor is still `None`. -/
def addParaStep (st : DState) (cur : Option Nat) (text : Str) (sty : Option Str) :
    DState × Nat :=
  match cur with
  | some c => insertParagraphAfter st c text sty
  | none => docAddParagraph st text sty

/-- The service-definition loop inside `_insert_full_content_block`
(lines 809-817): optional Heading-3 subtitle (unsanitised here), then the
HTML content followed by a spacer paragraph; the block's `images` and
`table` fields are not consulted. -/
def sdBlocksLoop (fetch : Str → Option Str) (st : DState) (cur : Nat) :
    List ContentBlock → DState × Nat
  | [] => (st, cur)
  | b :: rest =>
    let s1 := if b.subtitle.isEmpty then (st, cur)
      else insertParagraphAfter st cur b.subtitle (some "Heading 3".data)
    let s2 := match b.content with
      | none => s1
      | some nodes =>
        let r := insertHtml fetch s1.1 s1.2 nodes
        insertParagraphAfter r.1 r.2 [] none
    sdBlocksLoop fetch s2.1 s2.2 rest

/-- The spacer insertion `cur = self._insert_paragraph_after(cur, '')` after
a numbered list (the `none` branch is unreachable in the real flow — the
cursor is always a real paragraph there, and Python would raise on `None`;
it is modelled as an append at document end like `doc.add_paragraph`). -/
def spacerAfter (st : DState) (cur : Option Nat) : DState × Nat :=
  match cur with
  | some c => insertParagraphAfter st c [] none
  | none => docAddParagraph st [] none

/-- The linear prefix of `_insert_full_content_block` (everything before the
service-definition section): title, short-description section, the two
numbered lists capped via `features[:10]` / `benefits[:10]`, each followed by
a spacer paragraph. -/
def icbCore (st : DState) (cur : Option Nat) (title desc : Str)
    (features benefits : List Str) : DState × Nat :=
  let a1 := addParaStep st cur title (some "Heading 1".data)
  let a2 := addParaStep a1.1 (some a1.2) "Short Service Description".data
    (some "Heading 2".data)
  let a3 := addParaStep a2.1 (some a2.2) desc (some "Normal".data)
  let a4 := addParaStep a3.1 (some a3.2) "Key Service Features".data (some "Heading 2".data)
  let n1 := insertNumberedListBlock a4.1 (some a4.2) (features.take 10)
  let b1 := spacerAfter n1.1 n1.2
  let a5 := addParaStep b1.1 (some b1.2) "Key Service Benefits".data (some "Heading 2".data)
  let n2 := insertNumberedListBlock a5.1 (some a5.2) (benefits.take 10)
  spacerAfter n2.1 n2.2

/-- `_insert_full_content_block`: the linear core above, then the
service-definition section (`Service Definition` Heading-2 plus the block
loop) when `service_definition` is non-empty. -/
def insertFullContentBlock (fetch : Str → Option Str) (st : DState) (cur : Option Nat)
    (title desc : Str) (features benefits : List Str) (sdef : List ContentBlock) :
    DState × Option Nat :=
  let c := icbCore st cur title desc features benefits
  if sdef.isEmpty then (c.1, some c.2)
  else
    let a6 := addParaStep c.1 (some c.2) "Service Definition".data (some "Heading 2".data)
    let r := sdBlocksLoop fetch a6.1 a6.2 sdef
    (r.1, some r.2)

/-- Subtitle sanitisation inside `_insert_service_definition`. -/
def sanitizeSubtitle (s : Str) : Str :=
  if containsSub "AI Security".data s || containsSub "advisory".data (lowerStr s)
      || containsSub "1.1.1".data s || containsSub "1.4.1".data s then
    "Lorem ipsum dolor sit amet".data
  else s

/-- `_add_image` inside `_insert_service_definition`: on success a fresh
paragraph with the picture; on any fetch/decode failure the exception is
swallowed and the cursor is returned unchanged — no placeholder of any
kind. -/
def addImage (fetch : Str → Option Str) (st : DState) (cur : Nat) (url : Str) :
    DState × Nat :=
  match fetch url with
  | none => (st, cur)
  | some pic =>
    let pr := insertParagraphAfter st cur [] none
    (addRun pr.1 pr.2 (imgRun pic), pr.2)

/-- `cols = max(len(r) for r in table)`. -/
def maxRowLen (tbl : List (List Str)) : Nat := tbl.foldl (fun m r => Nat.max m r.length) 0

/-- `doc.add_table(rows, cols)` then per-cell assignment: rows padded with
empty cells up to the column count. -/
def mkTableCells (tbl : List (List Str)) : List (List Str) :=
  tbl.map (fun r => r ++ List.replicate (maxRowLen tbl - r.length) [])

/-- Block loop of `_insert_service_definition`: sanitised Heading-3
subtitle, HTML content (no spacer here), images via `_add_image`
(failures silently skipped), and the optional table appended at the
document end followed by a spacer after the cursor. -/
def sdDefLoop (fetch : Str → Option Str) (st : DState) (cur : Nat) :
    List ContentBlock → DState × Nat
  | [] => (st, cur)
  | b :: rest =>
    let s1 := if b.subtitle.isEmpty then (st, cur)
      else insertParagraphAfter st cur (sanitizeSubtitle b.subtitle) (some "Heading 3".data)
    let s2 := match b.content with
      | none => s1
      | some nodes => insertHtml fetch s1.1 s1.2 nodes
    let s3 := b.images.foldl (fun acc u => addImage fetch acc.1 acc.2 u) s2
    let s4 := match b.table with
      | some tbl =>
        if tbl.isEmpty then s3
        else
          let st2 := docAddTable s3.1 (mkTableCells tbl)
          insertParagraphAfter st2 s3.2 [] none
      | none => s3
    sdDefLoop fetch s4.1 s4.2 rest

/-- A top-level node that stops `_clear_section_after_heading`: a paragraph
with a Heading style (tables and other nodes are removed indiscriminately). -/
def isHeadingNode (n : PNode) : Bool :=
  match n.blk with
  | Block.para sty _ => isHeadingStyle sty
  | _ => false

/-- Body position (index over all nodes) of the first paragraph satisfying
`pred`. -/
def findParaPos (pred : ParaView → Bool) : List PNode → Option Nat
  | [] => none
  | n :: rest =>
    match n.blk with
    | Block.para sty rs =>
      if pred ⟨sty, rs⟩ then some 0
      else (findParaPos pred rest).map (· + 1)
    | _ => (findParaPos pred rest).map (· + 1)

/-- `_clear_section_after_heading`: drop every node after position `pos`
until the next Heading-styled paragraph. -/
def clearSectionAfterPos (body : List PNode) (pos : Nat) : List PNode :=
  body.take (pos + 1) ++ (body.drop (pos + 1)).dropWhile (fun n => !isHeadingNode n)

/-- The heading test of `_insert_service_definition`:
`p.text.strip() == 'Service Definition'` or a Heading-styled paragraph whose
text contains `Service Definition`. -/
def sdHeadingPred (p : ParaView) : Bool :=
  pyStrip (paraText p) == "Service Definition".data
    || (isHeadingStyle p.style && containsSub "Service Definition".data (paraText p))

/-- `_insert_service_definition(doc, blocks)`: locate the heading (no-op when
missing), clear its section, then run the block loop with the heading as
cursor. -/
def insertServiceDefinition (fetch : Str → Option Str) (st : DState)
    (blocks : List ContentBlock) : DState :=
  match findParaPos sdHeadingPred st.body with
  | none => st
  | some pos =>
    let body1 := clearSectionAfterPos st.body pos
    match body1.get? pos with
    | none => ⟨body1, st.nextId⟩
    | some h => (sdDefLoop fetch ⟨body1, st.nextId⟩ h.id blocks).1

/-!
## Pricing generator (`pricing_document_generator.py`, `_replace_title`)
-/

/-- The Heading-1 text update: strip the current text, append
`" - {service_name}"` unless the service name already occurs in the stripped
text. -/
def pricingTitleText (t0 sn : Str) : Str :=
  let cur := pyStrip t0
  if containsSub sn cur then cur else cur ++ " - ".data ++ sn

/-- Rewrite the first exact-`Heading 1` paragraph (`paragraph.text = ...`
replaces the runs by a single run; the formatting loop then makes it bold). -/
def replaceTitleHead1 (sn : Str) : List ParaView → List ParaView
  | [] => []
  | p :: rest =>
    if p.style == some "Heading 1".data then
      ⟨p.style, [boldRun (pricingTitleText (paraText p) sn)]⟩ :: rest
    else p :: replaceTitleHead1 sn rest

/-- The fallback placeholder list of the pricing `_replace_title`. -/
def pricingPlaceholders : List Str :=
  ["SERVICE TITLE".data, "SERVICE NAME".data, "\x7b\x7bSERVICE_NAME\x7d\x7d".data]

/-- First run containing any placeholder gets that (first matching)
placeholder replaced; `none` when no run of this paragraph matches. -/
def replaceRunPlaceholder (sn : Str) : List Run → Option (List Run)
  | [] => none
  | r :: rest =>
    match pricingPlaceholders.find? (fun ph => containsSub ph r.text) with
    | some ph =>
      some (⟨pyReplace ph sn r.text, r.bold, r.italic, r.color, r.brk, r.img⟩ :: rest)
    | none => (replaceRunPlaceholder sn rest).map (r :: ·)

/-- Fallback scan over paragraphs (all loops break after the first
replacement). -/
def replaceParasPlaceholder (sn : Str) : List ParaView → List ParaView
  | [] => []
  | p :: rest =>
    match replaceRunPlaceholder sn p.runs with
    | some rs => ⟨p.style, rs⟩ :: rest
    | none => p :: replaceParasPlaceholder sn rest

/-- `PricingDocumentGenerator._replace_title(doc, service_name)` at the
paragraph level. -/
def pricingReplaceTitle (paras : List ParaView) (sn : Str) : List ParaView :=
  if paras.any (fun p => p.style == some "Heading 1".data) then replaceTitleHead1 sn paras
  else replaceParasPlaceholder sn paras

/-- `joinSlash` of all components, each followed by a slash (the shape of a
join with a known last component). -/
def joinPre : List Str → Str
  | [] => []
  | x :: t => x ++ '/' :: joinPre t

/-!
## Block-level descriptions of composed segments

Pure (id-free) descriptions of the node sequences the composer inserts; the
claim theorems state that the composed body's blocks decompose into these. -/

/-- The blocks of a manually numbered list starting at ordinal `k`. -/
def numBlks (k : Nat) : List Str → List Block
  | [] => []
  | it :: rest => Block.para none [numRun (numText k), itemRun it] :: numBlks (k + 1) rest

/-- The block sequence of the linear core of `_insert_full_content_block`. -/
def coreBlks (title desc : Str) (features benefits : List Str) : List Block :=
  paraOf (some "Heading 1".data) title
    :: paraOf (some "Heading 2".data) "Short Service Description".data
    :: paraOf (some "Normal".data) desc
    :: paraOf (some "Heading 2".data) "Key Service Features".data
    :: (numBlks 1 (features.take 10)
      ++ Block.para none []
        :: paraOf (some "Heading 2".data) "Key Service Benefits".data
        :: (numBlks 1 (benefits.take 10) ++ [Block.para none []]))

/-- The runs one inline child contributes to the enclosing paragraph
(mirrors the non-`img` branches of `awiChild`; `img` is excluded by the
no-direct-image hypotheses under which this description is used). -/
def childRuns : HtmlNode → List Run
  | HtmlNode.text s => [mkRun s]
  | HtmlNode.elem nm _ cs =>
    if nm = "strong".data ∨ nm = "b".data then [boldRun (getTextF cs)]
    else if nm = "em".data ∨ nm = "i".data then [italicRun (getTextF cs)]
    else if nm = "br".data then [breakRun]
    else if nm = "img".data then []
    else [mkRun (getTextF cs)]

/-- All runs of an element's children. -/
def inlineRuns : HtmlForest → List Run
  | HtmlForest.nil => []
  | HtmlForest.cons c t => childRuns c ++ inlineRuns t

/-- Whether a forest has a direct `img` element child. -/
def hasDirectImg : HtmlForest → Bool
  | HtmlForest.nil => false
  | HtmlForest.cons (HtmlNode.elem nm _ _) t => nm == "img".data || hasDirectImg t
  | HtmlForest.cons _ t => hasDirectImg t

/-- Every direct `br` child is text-free (true for the void `<br/>` the
parser produces; `render_inline` renders a `br` as a text-free break run,
so only such children keep the paragraph text equal to `get_text()`). -/
def brChildrenEmpty : HtmlForest → Bool
  | HtmlForest.nil => true
  | HtmlForest.cons (HtmlNode.elem nm _ cs) t =>
    (!(nm == "br".data) || (getTextF cs).isEmpty) && brChildrenEmpty t
  | HtmlForest.cons _ t => brChildrenEmpty t

/-- The blocks of the `li` children of a `ul`/`ol` element. -/
def liBlks (sty : Str) : HtmlForest → List Block
  | HtmlForest.nil => []
  | HtmlForest.cons c t =>
    match c with
    | HtmlNode.elem nm _ _ =>
      if nm = "li".data then paraOf (some sty) (getText c) :: liBlks sty t
      else liBlks sty t
    | _ => liBlks sty t

/-- The blocks one top-level HTML node renders to (for nodes without direct
`img` children). -/
def elemBlks : HtmlNode → List Block
  | HtmlNode.text s => if (pyStrip s).isEmpty then [] else [Block.para none [mkRun s]]
  | HtmlNode.elem nm _ cs =>
    let l := lowerStr nm
    if l = "h3".data then [Block.para (some "Heading 3".data) (inlineRuns cs)]
    else if l = "p".data then [Block.para (some "Normal".data) (inlineRuns cs)]
    else if l = "ul".data ∨ l = "ol".data then
      liBlks (if l = "ul".data then "List Bullet".data else "List Number".data) cs
    else if l = "br".data then [Block.para none []]
    else [Block.para (some "Normal".data) (inlineRuns cs)]

/-- The blocks of a content forest with at most one top-level element. -/
def forestBlks : HtmlForest → List Block
  | HtmlForest.nil => []
  | HtmlForest.cons el HtmlForest.nil => elemBlks el
  | _ => []

/-- The blocks the HTML-content stage of one service-definition block
contributes: nothing for falsy content, the rendered forest plus the spacer
paragraph otherwise. -/
def contentBlks : Option HtmlForest → List Block
  | none => []
  | some f => forestBlks f ++ [Block.para none []]

/-- The blocks one service-definition content block contributes in
`_insert_full_content_block` (subtitle, rendered content, spacer; `images`
and `table` contribute nothing there). -/
def blockBlks (b : ContentBlock) : List Block :=
  (if b.subtitle.isEmpty then [] else [paraOf (some "Heading 3".data) b.subtitle])
    ++ contentBlks b.content

/-- The blocks of the whole service-definition loop. -/
def sdBlks (blocks : List ContentBlock) : List Block := (blocks.map blockBlks).flatten

/-- A top-level HTML node whose rendering the block description above
captures: list/break nodes are always fine, paragraph-building nodes must
have no direct `img` child. -/
def elOk : HtmlNode → Bool
  | HtmlNode.text _ => true
  | HtmlNode.elem nm _ cs =>
    let l := lowerStr nm
    if l = "ul".data ∨ l = "ol".data ∨ l = "br".data then true
    else !hasDirectImg cs

/-- A content block whose HTML content has at most one top-level element,
that element being `elOk`. -/
def blockContentOk (b : ContentBlock) : Bool :=
  match b.content with
  | none => true
  | some HtmlForest.nil => true
  | some (HtmlForest.cons el HtmlForest.nil) => elOk el
  | some _ => false

/-- Some paragraph of the body has a run with exactly this text. -/
def bodyHasRunText (body : List PNode) (t : Str) : Bool :=
  body.any (fun n =>
    match n.blk with
    | Block.para _ rs => rs.any (fun r => r.text == t)
    | _ => false)

/-- Some paragraph of the body has text containing `t` as a substring. -/
def bodyHasParaSub (body : List PNode) (t : Str) : Bool :=
  body.any (fun n =>
    match n.blk with
    | Block.para _ rs => containsSub t (runsText rs)
    | _ => false)

/-- Some paragraph of the body carries style `sty` and exactly the text
`t`. -/
def bodyHasStyledPara (body : List PNode) (sty : Option Str) (t : Str) : Bool :=
  body.any (fun n =>
    match n.blk with
    | Block.para s rs => s == sty && runsText rs == t
    | _ => false)

/-- Proposition: some paragraph of the body contains a run with text `t`. -/
def runMem (t : Str) (body : List PNode) : Prop :=
  ∃ n ∈ body, ∃ sty rs, n.blk = Block.para sty rs ∧ ∃ r ∈ rs, r.text = t

/-- Invariant threaded through the composer's linear insertions: the body
splits as `X ++ seg ++ Y`, the state is well formed, and the cursor is the
last node of `seg`. -/
def LinInv (st : DState) (X Y seg : List PNode) (cur : Nat) : Prop :=
  st.body = X ++ seg ++ Y ∧ wfState st ∧ ∃ pre n, seg = pre ++ [n] ∧ n.id = cur

/-- Locality invariant for the rich service-definition rendering: the body
splits as `X ++ seg ++ Y` and the state is well formed.  Every renderer
operation addresses nodes by id; as long as the addressed ids stay inside
`seg`, the prefix `X` and suffix `Y` are untouched and only `seg` grows. -/
def ZoneInv (st : DState) (X Y seg : List PNode) : Prop :=
  st.body = X ++ seg ++ Y ∧ wfState st

/-- The text of a block (`p.text` for a paragraph, nothing for a table). -/
def blockText : Block → Str
  | Block.para _ rs => runsText rs
  | Block.table _ => []

/-!
# Lemmas and claim theorems
-/

theorem splitOnSlash_ne_nil (s : Str) : splitOnSlash s ≠ [] := by
  cases s with
  | nil => simp [splitOnSlash]
  | cons c rest =>
    simp only [splitOnSlash]
    cases h : splitOnSlash rest with
    | nil => simp
    | cons a t => by_cases hc : c = '/' <;> simp [hc]

theorem splitOnSlash_no_slash (s : Str) (h : ('/' : Char) ∉ s) : splitOnSlash s = [s] := by
  induction s with
  | nil => rfl
  | cons c rest ih =>
    have hc : c ≠ '/' := fun hc => h (hc ▸ List.mem_cons_self c rest)
    have hr : ('/' : Char) ∉ rest := fun hm => h (List.mem_cons_of_mem c hm)
    simp only [splitOnSlash, ih hr]
    simp [hc]

theorem splitOnSlash_append_slash (A B : Str) (h : ('/' : Char) ∉ A) :
    splitOnSlash (A ++ '/' :: B) = A :: splitOnSlash B := by
  induction A with
  | nil =>
    simp only [List.nil_append, splitOnSlash]
    cases hb : splitOnSlash B with
    | nil => exact absurd hb (splitOnSlash_ne_nil B)
    | cons a t => simp
  | cons c A' ih =>
    have hc : c ≠ '/' := fun hc => h (hc ▸ List.mem_cons_self c A')
    have hA : ('/' : Char) ∉ A' := fun hm => h (List.mem_cons_of_mem c hm)
    have h3 := ih hA
    simp only [List.cons_append, splitOnSlash, List.append_eq]
    rw [h3]
    simp [hc]

theorem split_decomp (A : Str) :
    ∃ F lastA, splitOnSlash A = F ++ [lastA] ∧
      ∀ B : Str, ('/' : Char) ∉ B → splitOnSlash (A ++ B) = F ++ [lastA ++ B] := by
  induction A with
  | nil =>
    refine ⟨[], [], rfl, fun B hB => ?_⟩
    simp [splitOnSlash_no_slash B hB]
  | cons c A' ih =>
    obtain ⟨F, lastA, h1, h2⟩ := ih
    by_cases hc : c = '/'
    · subst hc
      refine ⟨[] :: F, lastA, ?_, fun B hB => ?_⟩
      · cases F with
        | nil =>
          simp only [List.nil_append] at h1
          simp only [splitOnSlash]
          rw [h1]
          simp
        | cons f F' =>
          simp only [splitOnSlash]
          rw [h1]
          simp
      · have h3 := h2 B hB
        cases F with
        | nil =>
          simp only [List.nil_append] at h3
          simp only [List.cons_append, splitOnSlash, List.append_eq]
          rw [h3]
          simp
        | cons f F' =>
          simp only [List.cons_append, splitOnSlash, List.append_eq]
          rw [h3]
          simp
    · cases F with
      | nil =>
        simp only [List.nil_append] at h1 h2
        refine ⟨[], c :: lastA, ?_, fun B hB => ?_⟩
        · simp only [splitOnSlash]
          rw [h1]
          simp [hc]
        · have h3 := h2 B hB
          simp only [List.cons_append, splitOnSlash, List.append_eq]
          rw [h3]
          simp [hc]
      | cons f F' =>
        refine ⟨(c :: f) :: F', lastA, ?_, fun B hB => ?_⟩
        · simp only [splitOnSlash]
          rw [h1]
          simp [hc]
        · have h3 := h2 B hB
          simp only [List.cons_append, splitOnSlash, List.append_eq]
          rw [h3]
          simp [hc]

theorem splitOnSlash_firstComp (s : Str) (h : ('/' : Char) ∉ s) (t : Str) :
    splitOnSlash (s ++ t) =
      (s ++ (splitOnSlash t).headI) :: (splitOnSlash t).tail := by
  induction s with
  | nil =>
    cases ht : splitOnSlash t with
    | nil => exact absurd ht (splitOnSlash_ne_nil t)
    | cons a l => simp [ht]
  | cons c s' ih =>
    have hc : c ≠ '/' := fun hc => h (hc ▸ List.mem_cons_self c s')
    have hs : ('/' : Char) ∉ s' := fun hm => h (List.mem_cons_of_mem c hm)
    have h3 := ih hs
    simp only [List.cons_append, splitOnSlash, List.append_eq]
    rw [h3]
    simp [hc]

theorem split_join (comps : List Str) (hne : comps ≠ [])
    (h : ∀ x ∈ comps, ('/' : Char) ∉ x) :
    splitOnSlash (joinSlash comps) = comps := by
  induction comps with
  | nil => exact absurd rfl hne
  | cons x t ih =>
    cases t with
    | nil => simpa [joinSlash] using splitOnSlash_no_slash x (h x (List.mem_cons_self x []))
    | cons y t' =>
      have hx : ('/' : Char) ∉ x := h x (List.mem_cons_self _ _)
      have ht : ∀ z ∈ y :: t', ('/' : Char) ∉ z := fun z hz => h z (List.mem_cons_of_mem x hz)
      simp only [joinSlash]
      rw [splitOnSlash_append_slash _ _ hx, ih (by simp) ht]

theorem joinSlash_append_last (G : List Str) (y : Str) :
    joinSlash (G ++ [y]) = joinPre G ++ y := by
  induction G with
  | nil => simp [joinSlash, joinPre]
  | cons g G' ih =>
    cases G' with
    | nil => simp [joinSlash, joinPre]
    | cons g' G'' =>
      simp only [List.cons_append, joinSlash, joinPre] at *
      simp [ih]

theorem mem_joinSlash {c : Char} {x : Str} {comps : List Str} (hx : x ∈ comps)
    (hc : c ∈ x) : c ∈ joinSlash comps := by
  induction comps with
  | nil => cases hx
  | cons y t ih =>
    rcases List.mem_cons.mp hx with h | h
    · subst h
      cases t with
      | nil => simpa [joinSlash] using hc
      | cons z t' => simp only [joinSlash]; exact List.mem_append_left _ hc
    · cases t with
      | nil => cases h
      | cons z t' =>
        simp only [joinSlash]
        exact List.mem_append_right _ (List.mem_cons_of_mem _ (ih h))

theorem slash_mem_joinSlash (a b : Str) (t : List Str) :
    ('/' : Char) ∈ joinSlash (a :: b :: t) := by
  simp only [joinSlash]
  exact List.mem_append_right _ (List.mem_cons_self _ _)

theorem mem_split {c : Char} (hc : c ≠ '/') :
    ∀ {s : Str}, c ∈ s → ∃ comp ∈ splitOnSlash s, c ∈ comp := by
  intro s
  induction s with
  | nil => intro h; cases h
  | cons c0 rest ih =>
    intro h
    rcases List.mem_cons.mp h with h0 | h0
    · have h1 : c0 ≠ '/' := h0 ▸ hc
      cases hsr : splitOnSlash rest with
      | nil => exact absurd hsr (splitOnSlash_ne_nil rest)
      | cons a t =>
        refine ⟨c0 :: a, ?_, by simp [h0]⟩
        simp [splitOnSlash, hsr, h1]
    · obtain ⟨comp, hcm, hcc⟩ := ih h0
      by_cases h1 : c0 = '/'
      · subst h1
        refine ⟨comp, ?_, hcc⟩
        cases hsr : splitOnSlash rest with
        | nil => exact absurd hsr (splitOnSlash_ne_nil rest)
        | cons a t =>
          rw [hsr] at hcm
          simp [splitOnSlash, hsr, hcm]
      · cases hsr : splitOnSlash rest with
        | nil => exact absurd hsr (splitOnSlash_ne_nil rest)
        | cons a t =>
          rw [hsr] at hcm
          rcases List.mem_cons.mp hcm with h2 | h2
          · subst h2
            refine ⟨c0 :: comp, ?_, List.mem_cons_of_mem _ hcc⟩
            simp [splitOnSlash, hsr, h1]
          · refine ⟨comp, ?_, hcc⟩
            simp [splitOnSlash, hsr, h1, h2]

theorem splitLen_ge_two {s : Str} (h : ('/' : Char) ∈ s) :
    2 ≤ (splitOnSlash s).length := by
  induction s with
  | nil => cases h
  | cons c rest ih =>
    by_cases hc : c = '/'
    · subst hc
      cases hsr : splitOnSlash rest with
      | nil => exact absurd hsr (splitOnSlash_ne_nil rest)
      | cons a t => simp [splitOnSlash, hsr]
    · have hr : ('/' : Char) ∈ rest := by
        rcases List.mem_cons.mp h with h0 | h0
        · exact absurd h0.symm hc
        · exact h0
      have h2 := ih hr
      cases hsr : splitOnSlash rest with
      | nil => exact absurd hsr (splitOnSlash_ne_nil rest)
      | cons a t =>
        rw [hsr] at h2
        simp only [splitOnSlash, hsr]
        simp [hc]
        simpa using h2

theorem mem_collapseWsAux {d : Char} :
    ∀ {s : Str} {b : Bool}, d ∈ collapseWsAux b s → d = ' ' ∨ d ∈ s := by
  intro s
  induction s with
  | nil => intro b h; cases h
  | cons c rest ih =>
    intro b h
    by_cases hc : isPySpace c = true
    · simp only [collapseWsAux, hc, if_true] at h
      cases b with
      | true =>
        rcases ih h with h1 | h1
        · exact Or.inl h1
        · exact Or.inr (List.mem_cons_of_mem _ h1)
      | false =>
        rcases List.mem_cons.mp h with h1 | h1
        · exact Or.inl h1
        · rcases ih h1 with h2 | h2
          · exact Or.inl h2
          · exact Or.inr (List.mem_cons_of_mem _ h2)
    · simp only [collapseWsAux, hc, if_false] at h
      rcases List.mem_cons.mp h with h1 | h1
      · exact Or.inr (h1 ▸ List.mem_cons_self _ _)
      · rcases ih h1 with h2 | h2
        · exact Or.inl h2
        · exact Or.inr (List.mem_cons_of_mem _ h2)

theorem mem_pyStrip {d : Char} {s : Str} (h : d ∈ pyStrip s) : d ∈ s := by
  unfold pyStrip at h
  rw [List.mem_reverse] at h
  have h2 : d ∈ (s.dropWhile isPySpace).reverse :=
    (List.dropWhile_sublist _).mem h
  rw [List.mem_reverse] at h2
  exact (List.dropWhile_sublist _).mem h2

theorem not_mem_normalise {c : Char}
    (hbad : (isPyWordChar c || isPySpace c || c = '-') = false) (s : Str) :
    c ∉ normaliseServiceFolder s := by
  intro hmem
  unfold normaliseServiceFolder at hmem
  rw [List.mem_map] at hmem
  obtain ⟨d, hd, hdc⟩ := hmem
  by_cases hsp : d = ' '
  · subst hsp
    simp only [if_pos rfl] at hdc
    subst hdc
    exact absurd hbad (by decide)
  · rw [if_neg hsp] at hdc
    subst hdc
    rcases mem_collapseWsAux hd with h | h
    · exact hsp h
    · have h2 := mem_pyStrip h
      have h3 := List.of_mem_filter h2
      rw [h3] at hbad
      cases hbad

theorem posixStr_join {raw : Str} {l : List Str}
    (h : (splitOnSlash raw).filter keepComponent = l) (hne : l ≠ []) :
    posixStr raw = joinSlash l := by
  unfold posixStr
  rw [h]
  cases l with
  | nil => exact absurd rfl hne
  | cons a t => rfl

theorem keyRaw_eq_stem (sn dt v lot ext : Str) (draft : Bool) :
    keyRaw sn dt v lot ext draft =
      keyStem sn dt v lot ++ ((if draft then "_draft".data else []) ++ '.' :: ext) := by
  have hdot : ".".data = ['.'] := rfl
  simp [keyRaw, keyStem, serviceFilename, hdot, List.append_assoc]

theorem key_components (sn dt v lot ext : Str) (h1 : ext ≠ [])
    (h2 : ('/' : Char) ∉ ext) :
    ∃ q : Str, ∀ draft : Bool,
      build_service_blob_key sn dt v lot ext draft =
        (q ++ (if draft then "_draft".data else [])) ++ '.' :: ext := by
  obtain ⟨F, lastA, hA, hAB⟩ := split_decomp (keyStem sn dt v lot)
  refine ⟨joinPre (F.filter keepComponent) ++ lastA, fun draft => ?_⟩
  have hB : ('/' : Char) ∉ ((if draft then "_draft".data else []) ++ '.' :: ext) := by
    intro hm
    rcases List.mem_append.mp hm with h | h
    · cases draft with
      | true => exact absurd h (by decide)
      | false => cases h
    · rcases List.mem_cons.mp h with h | h
      · cases h
      · exact h2 h
  have hsplit := hAB _ hB
  have hextlen : 1 ≤ ext.length := List.length_pos.mpr h1
  have hkeep :
      keepComponent (lastA ++ ((if draft then "_draft".data else []) ++ '.' :: ext))
        = true := by
    have hne2 : lastA ++ ((if draft then "_draft".data else []) ++ '.' :: ext) ≠ [] := by
      simp
    have hdot : lastA ++ ((if draft then "_draft".data else []) ++ '.' :: ext) ≠ ['.'] := by
      intro hx
      have hlen := congrArg List.length hx
      simp [List.length_append] at hlen
      cases draft <;> simp at hlen <;> omega
    simp [keepComponent, hne2, hdot]
  have hfilter :
      (splitOnSlash (keyStem sn dt v lot
          ++ ((if draft then "_draft".data else []) ++ '.' :: ext))).filter keepComponent
        = F.filter keepComponent
          ++ [lastA ++ ((if draft then "_draft".data else []) ++ '.' :: ext)] := by
    rw [hsplit, List.filter_append]
    simp [hkeep]
  have hne3 : F.filter keepComponent
      ++ [lastA ++ ((if draft then "_draft".data else []) ++ '.' :: ext)] ≠ [] := by
    simp
  have hkey : build_service_blob_key sn dt v lot ext draft
      = joinSlash (F.filter keepComponent
          ++ [lastA ++ ((if draft then "_draft".data else []) ++ '.' :: ext)]) := by
    rw [build_service_blob_key, keyRaw_eq_stem]
    exact posixStr_join hfilter hne3
  rw [hkey, joinSlash_append_last]
  simp [List.append_assoc]

/-- C2: `build_service_blob_key` is a pure function of its argument tuple
(in this embedding it is a mathematical function, so determinism is
definitional), and for every tuple whose extension is a real extension
(non-empty, no path separator — the spec's domain is `docx`/`pdf`), the
draft and final keys share one common prefix and differ exactly by the
`_draft` suffix inserted in the filename before the extension. -/
theorem buildKey_draft_relation (sn dt v lot ext : Str) (h1 : ext ≠ [])
    (h2 : ('/' : Char) ∉ ext) :
    ∃ p : Str,
      build_service_blob_key sn dt v lot ext false = p ++ '.' :: ext ∧
      build_service_blob_key sn dt v lot ext true = p ++ "_draft".data ++ '.' :: ext := by
  obtain ⟨q, hq⟩ := key_components sn dt v lot ext h1 h2
  refine ⟨q, ?_, ?_⟩
  · have h3 := hq false
    simpa using h3
  · have h3 := hq true
    simpa [List.append_assoc] using h3

theorem keepComponent_of_ne {l : Str} (h1 : l ≠ []) (h2 : l ≠ ['.']) :
    keepComponent l = true := by
  simp [keepComponent, h1, h2]

theorem keep_filename_tail (lastA ext : Str) (draft : Bool) (h1 : ext ≠ []) :
    keepComponent (lastA ++ ((if draft then "_draft".data else []) ++ '.' :: ext))
      = true := by
  have hextlen : 1 ≤ ext.length := List.length_pos.mpr h1
  refine keepComponent_of_ne (by simp) ?_
  intro hx
  have hlen := congrArg List.length hx
  simp [List.length_append] at hlen
  cases draft <;> simp at hlen <;> omega

/-- C9 (implicit): a character of the service name that
`_normalise_service_folder` strips is absent from the folder segment, yet
the raw service name is embedded verbatim in the filename, so the character
still appears in the returned key (for extensions from the spec's domain:
non-empty, slash-free). -/
theorem strippedChar_in_key (sn dt v lot ext : Str) (draft : Bool) (c : Char)
    (hc : c ∈ sn) (hbad : (isPyWordChar c || isPySpace c || c = '-') = false)
    (h1 : ext ≠ []) (h2 : ('/' : Char) ∉ ext) :
    c ∉ normaliseServiceFolder sn ∧
    (∃ s t : Str, serviceFilename sn dt v ext draft = s ++ (sn ++ t)) ∧
    c ∈ build_service_blob_key sn dt v lot ext draft := by
  refine ⟨not_mem_normalise hbad sn, ?_, ?_⟩
  · refine ⟨"PA GC".data ++ v ++ " ".data ++ dt ++ " ".data,
      (if draft then "_draft".data else []) ++ ".".data ++ ext, ?_⟩
    simp [serviceFilename, List.append_assoc]
  · by_cases hsl : c = '/'
    · subst hsl
      -- the key always contains at least two kept components
      have hlit : ('/' : Char) ∈ "/PA Services/Cloud Support Services LOT ".data := by
        decide
      have hshape : keyRaw sn dt v lot ext draft
          = "GCloud ".data ++ (v ++ ("/PA Services/Cloud Support Services LOT ".data
            ++ (lot ++ ("/".data ++ (normaliseServiceFolder sn
              ++ ("/".data ++ serviceFilename sn dt v ext draft)))))) := by
        simp [keyRaw, List.append_assoc]
      have hslT : ('/' : Char) ∈ (v ++ ("/PA Services/Cloud Support Services LOT ".data
          ++ (lot ++ ("/".data ++ (normaliseServiceFolder sn
            ++ ("/".data ++ serviceFilename sn dt v ext draft)))))) :=
        List.mem_append_right v (List.mem_append_left _ hlit)
      have hfc := splitOnSlash_firstComp "GCloud ".data (by decide)
        (v ++ ("/PA Services/Cloud Support Services LOT ".data
          ++ (lot ++ ("/".data ++ (normaliseServiceFolder sn
            ++ ("/".data ++ serviceFilename sn dt v ext draft))))))
      have hlen := splitLen_ge_two hslT
      cases hsp : splitOnSlash (v ++ ("/PA Services/Cloud Support Services LOT ".data
          ++ (lot ++ ("/".data ++ (normaliseServiceFolder sn
            ++ ("/".data ++ serviceFilename sn dt v ext draft)))))) with
      | nil => exact absurd hsp (splitOnSlash_ne_nil _)
      | cons a t =>
        rw [hsp] at hfc hlen
        have ht : t ≠ [] := by
          intro h0
          rw [h0] at hlen
          simp at hlen
        -- full split of the raw key path
        have hsplitraw : splitOnSlash (keyRaw sn dt v lot ext draft)
            = ("GCloud ".data ++ a) :: t := by
          rw [hshape, hfc]
          simp
        -- last component comes from the stem decomposition
        obtain ⟨F, lastA, hA, hAB⟩ := split_decomp (keyStem sn dt v lot)
        have hB : ('/' : Char) ∉ ((if draft then "_draft".data else []) ++ '.' :: ext) := by
          intro hm
          rcases List.mem_append.mp hm with h | h
          · cases draft with
            | true => exact absurd h (by decide)
            | false => cases h
          · rcases List.mem_cons.mp h with h | h
            · cases h
            · exact h2 h
        have hsplit2 := hAB _ hB
        rw [← keyRaw_eq_stem] at hsplit2
        rw [hsplitraw] at hsplit2
        -- identify t = F' ++ [last component]
        cases F with
        | nil =>
          simp only [List.nil_append] at hsplit2
          have := congrArg List.length hsplit2
          simp at this
          exact absurd this ht
        | cons f F' =>
          have hf : f = "GCloud ".data ++ a := by
            have := congrArg (fun l => List.head? l) hsplit2
            simpa using this.symm
          have htF : t = F' ++ [lastA ++ ((if draft then "_draft".data else [])
              ++ '.' :: ext)] := by
            have := congrArg List.tail hsplit2
            simpa using this
          -- the filtered components keep the head and the last
          have hkhead : keepComponent ("GCloud ".data ++ a) = true := by
            refine keepComponent_of_ne (by simp) ?_
            intro hx
            have : 'G' :: ("Cloud ".data ++ a) = ['.'] := hx
            simp at this
          have hktail := keep_filename_tail lastA ext draft h1
          have hfcomp : (splitOnSlash (keyRaw sn dt v lot ext draft)).filter keepComponent
              = ("GCloud ".data ++ a)
                :: (F'.filter keepComponent ++ [lastA ++ ((if draft then "_draft".data
                  else []) ++ '.' :: ext)]) := by
            rw [hsplitraw, htF]
            rw [List.filter_cons_of_pos hkhead, List.filter_append]
            simp [List.filter_cons, hktail]
          have hne4 : ("GCloud ".data ++ a)
              :: (F'.filter keepComponent ++ [lastA ++ ((if draft then "_draft".data
                else []) ++ '.' :: ext)]) ≠ ([] : List Str) := by simp
          have hkey := posixStr_join hfcomp hne4
          rw [build_service_blob_key, hkey]
          cases hFf : F'.filter keepComponent with
          | nil =>
            simpa using slash_mem_joinSlash ("GCloud ".data ++ a)
              (lastA ++ ((if draft then "_draft".data else []) ++ '.' :: ext)) []
          | cons g G =>
            simpa using slash_mem_joinSlash ("GCloud ".data ++ a) g
              (G ++ [lastA ++ ((if draft then "_draft".data else []) ++ '.' :: ext)])
    · by_cases hdt : c = '.'
      · subst hdt
        obtain ⟨q, hq⟩ := key_components sn dt v lot ext h1 h2
        rw [hq draft]
        exact List.mem_append_right _ (List.mem_cons_self _ _)
      · have hcstem : c ∈ keyStem sn dt v lot := by
          unfold keyStem
          exact List.mem_append_right _ hc
        have hcraw : c ∈ keyRaw sn dt v lot ext draft := by
          rw [keyRaw_eq_stem]
          exact List.mem_append_left _ hcstem
        obtain ⟨comp, hcm, hcc⟩ := mem_split hsl hcraw
        have hkc : keepComponent comp = true := by
          refine keepComponent_of_ne (List.ne_nil_of_mem hcc) ?_
          intro hx
          rw [hx] at hcc
          simp at hcc
          exact hdt hcc
        have hcm2 : comp ∈ (splitOnSlash (keyRaw sn dt v lot ext draft)).filter
            keepComponent := List.mem_filter.mpr ⟨hcm, hkc⟩
        have hne5 := List.ne_nil_of_mem hcm2
        rw [build_service_blob_key, posixStr_join rfl hne5]
        exact mem_joinSlash hcm2 hcc

/-- Witness for C9: the slash of `a/b` is stripped from the folder yet
appears in the key. -/
theorem strippedChar_in_key_witness :
    ('/' : Char) ∉ normaliseServiceFolder "a/b".data ∧
    (∃ s t : Str, serviceFilename "a/b".data "SERVICE DESC".data "15".data "docx".data
        false = s ++ ("a/b".data ++ t)) ∧
    ('/' : Char) ∈ build_service_blob_key "a/b".data "SERVICE DESC".data "15".data
        "2".data "docx".data false :=
  strippedChar_in_key "a/b".data "SERVICE DESC".data "15".data "2".data "docx".data
    false '/' (by decide) (by decide) (by decide) (by decide)

theorem normalise_eq_specFolder (s : Str) :
    normaliseServiceFolder s = specFolderNormalise s := by
  unfold normaliseServiceFolder specFolderNormalise
  have hft : s.filter (fun c => isPyWordChar c || isPySpace c || c = '-')
      = s.filter (fun c => c.isAlpha || c.isDigit || c = '_' || isPySpace c || c = '-') := by
    apply List.filter_congr
    intro c _
    simp [isPyWordChar, Bool.or_assoc]
  rw [hft]

theorem no_slash_serviceFilename (sn dt v ext : Str) (draft : Bool)
    (hv : ('/' : Char) ∉ v) (hd : ('/' : Char) ∉ dt) (hs : ('/' : Char) ∉ sn)
    (he : ('/' : Char) ∉ ext) : ('/' : Char) ∉ serviceFilename sn dt v ext draft := by
  intro hm
  unfold serviceFilename at hm
  simp only [List.mem_append, or_assoc] at hm
  rcases hm with h | h | h | h | h | h | h | h | h
  · exact absurd h (by decide)
  · exact hv h
  · exact absurd h (by decide)
  · exact hd h
  · exact absurd h (by decide)
  · exact hs h
  · cases draft with
    | true => exact absurd h (by decide)
    | false => cases h
  · exact absurd h (by decide)
  · exact he h

/-- C4 (amended): under the path-safe field domain (no `/` in any field,
service folder non-empty), the key splits into exactly the four taxonomy
folders and the filename: the folder segment is the service name normalised
per the (amended) spec wording — keeping letters, digits, underscore,
whitespace, hyphen; trimming edges; collapsing whitespace; spaces to
underscores — while the filename segment embeds the raw service name with
its original spacing. -/
theorem key_folder_vs_filename (sn dt v lot ext : Str) (draft : Bool)
    (hv : ('/' : Char) ∉ v) (hl : ('/' : Char) ∉ lot) (hd : ('/' : Char) ∉ dt)
    (hs : ('/' : Char) ∉ sn) (he : ('/' : Char) ∉ ext)
    (hf : normaliseServiceFolder sn ≠ []) :
    splitOnSlash (build_service_blob_key sn dt v lot ext draft) =
      ["GCloud ".data ++ v, "PA Services".data,
       "Cloud Support Services LOT ".data ++ lot,
       specFolderNormalise sn, serviceFilename sn dt v ext draft] ∧
    normaliseServiceFolder sn = specFolderNormalise sn ∧
    (∃ s t : Str, serviceFilename sn dt v ext draft = s ++ (sn ++ t)) := by
  have heq := normalise_eq_specFolder sn
  have hA1 : ('/' : Char) ∉ "GCloud ".data ++ v := by
    intro h
    rcases List.mem_append.mp h with h | h
    · exact absurd h (by decide)
    · exact hv h
  have hA3 : ('/' : Char) ∉ "Cloud Support Services LOT ".data ++ lot := by
    intro h
    rcases List.mem_append.mp h with h | h
    · exact absurd h (by decide)
    · exact hl h
  have hfold : ('/' : Char) ∉ normaliseServiceFolder sn :=
    not_mem_normalise (by decide) sn
  have hfile := no_slash_serviceFilename sn dt v ext draft hv hd hs he
  have hlit1 : "/PA Services/Cloud Support Services LOT ".data
      = '/' :: ("PA Services".data ++ '/' :: "Cloud Support Services LOT ".data) := by
    decide
  have hraw : keyRaw sn dt v lot ext draft
      = ("GCloud ".data ++ v) ++ '/' :: ("PA Services".data
        ++ '/' :: (("Cloud Support Services LOT ".data ++ lot)
          ++ '/' :: (normaliseServiceFolder sn
            ++ '/' :: serviceFilename sn dt v ext draft))) := by
    rw [keyRaw, hlit1]
    simp [List.append_assoc]
  have hsplit : splitOnSlash (keyRaw sn dt v lot ext draft)
      = ["GCloud ".data ++ v, "PA Services".data,
         "Cloud Support Services LOT ".data ++ lot,
         normaliseServiceFolder sn, serviceFilename sn dt v ext draft] := by
    rw [hraw]
    rw [splitOnSlash_append_slash _ _ hA1]
    rw [splitOnSlash_append_slash _ _ (by decide : ('/' : Char) ∉ "PA Services".data)]
    rw [splitOnSlash_append_slash _ _ hA3]
    rw [splitOnSlash_append_slash _ _ hfold]
    rw [splitOnSlash_no_slash _ hfile]
  have hk1 : keepComponent ("GCloud ".data ++ v) = true := by
    refine keepComponent_of_ne (by simp) ?_
    intro hx
    have : 'G' :: ("Cloud ".data ++ v) = ['.'] := hx
    simp at this
  have hk2 : keepComponent "PA Services".data = true := by decide
  have hk3 : keepComponent ("Cloud Support Services LOT ".data ++ lot) = true := by
    refine keepComponent_of_ne (by simp) ?_
    intro hx
    have : 'C' :: ("loud Support Services LOT ".data ++ lot) = ['.'] := hx
    simp at this
  have hk4 : keepComponent (normaliseServiceFolder sn) = true := by
    refine keepComponent_of_ne hf ?_
    intro hx
    have : ('.' : Char) ∈ normaliseServiceFolder sn := by
      rw [hx]; simp
    exact not_mem_normalise (by decide) sn this
  have hk5 : keepComponent (serviceFilename sn dt v ext draft) = true := by
    refine keepComponent_of_ne ?_ ?_
    · unfold serviceFilename
      simp
    · intro hx
      have : 'P' :: ("A GC".data ++ v ++ " ".data ++ dt ++ " ".data ++ sn
          ++ (if draft then "_draft".data else []) ++ ".".data ++ ext) = ['.'] := hx
      simp at this
  have hfilter : (splitOnSlash (keyRaw sn dt v lot ext draft)).filter keepComponent
      = ["GCloud ".data ++ v, "PA Services".data,
         "Cloud Support Services LOT ".data ++ lot,
         normaliseServiceFolder sn, serviceFilename sn dt v ext draft] := by
    rw [hsplit]
    rw [List.filter_cons_of_pos hk1, List.filter_cons_of_pos hk2,
      List.filter_cons_of_pos hk3, List.filter_cons_of_pos hk4,
      List.filter_cons_of_pos hk5]
    rfl
  have hkey : build_service_blob_key sn dt v lot ext draft
      = joinSlash ["GCloud ".data ++ v, "PA Services".data,
         "Cloud Support Services LOT ".data ++ lot,
         normaliseServiceFolder sn, serviceFilename sn dt v ext draft] :=
    posixStr_join hfilter (by simp)
  refine ⟨?_, heq, ?_⟩
  · rw [hkey, ← heq]
    apply split_join _ (by simp)
    intro x hx
    simp only [List.mem_cons, List.not_mem_nil, or_false] at hx
    rcases hx with h | h | h | h | h
    · rw [h]; exact hA1
    · rw [h]; decide
    · rw [h]; exact hA3
    · rw [h]; exact hfold
    · rw [h]; exact hfile
  · refine ⟨"PA GC".data ++ v ++ " ".data ++ dt ++ " ".data,
      (if draft then "_draft".data else []) ++ ".".data ++ ext, ?_⟩
    simp [serviceFilename, List.append_assoc]

/-- Counterexample for C4 as stated: with service name `" a_b"`, the key's
folder segment is `a_b` (underscore kept, edges trimmed), not the `_ab` the
claim's literal normalisation (strip everything outside
letters/digits/whitespace/hyphen, no trim) would produce. -/
theorem key_folder_claim_counterexample :
    (splitOnSlash (build_service_blob_key " a_b".data "SERVICE DESC".data "15".data
        "2".data "docx".data false)).get? 3 ≠
      some (claimFolderNormalise " a_b".data) := by decide

/-- Witness: the amended folder/filename decomposition at a concrete
tuple. -/
theorem key_folder_vs_filename_witness :
    splitOnSlash (build_service_blob_key " a_b".data "SERVICE DESC".data "15".data
        "2".data "docx".data false) =
      ["GCloud ".data ++ "15".data, "PA Services".data,
       "Cloud Support Services LOT ".data ++ "2".data,
       specFolderNormalise " a_b".data,
       serviceFilename " a_b".data "SERVICE DESC".data "15".data "docx".data false] ∧
    normaliseServiceFolder " a_b".data = specFolderNormalise " a_b".data ∧
    (∃ s t : Str, serviceFilename " a_b".data "SERVICE DESC".data "15".data "docx".data
        false = s ++ (" a_b".data ++ t)) :=
  key_folder_vs_filename " a_b".data "SERVICE DESC".data "15".data "2".data "docx".data
    false (by decide) (by decide) (by decide) (by decide) (by decide) (by decide)

theorem pyReplaceFuel_of_not_contains (pat rep : Str) :
    ∀ (fuel : Nat) (s : Str), s.length ≤ fuel → containsSub pat s = false →
      pyReplaceFuel pat rep fuel s = s := by
  intro fuel
  induction fuel with
  | zero => intro s _ _; rfl
  | succ f ih =>
    intro s hlen hsub
    cases s with
    | nil => rfl
    | cons c rest =>
      rw [containsSub, Bool.or_eq_false_iff] at hsub
      have hp : pat.isEmpty = false := by
        cases pat with
        | nil => simp [List.isPrefixOf] at hsub
        | cons _ _ => rfl
      simp only [pyReplaceFuel, hp, hsub.1, Bool.false_eq_true, if_false]
      rw [ih rest (Nat.le_of_succ_le_succ hlen) hsub.2]

theorem applyMapping_of_not_contains (mapping : List (Str × Str)) (s : Str)
    (h : ∀ pr ∈ mapping, containsSub pr.1 s = false) : applyMapping mapping s = s := by
  induction mapping with
  | nil => rfl
  | cons p t ih =>
    have h1 := h p (List.mem_cons_self _ _)
    unfold applyMapping
    simp only [List.foldl_cons, h1, Bool.false_eq_true, if_false]
    exact ih (fun pr hpr => h pr (List.mem_cons_of_mem _ hpr))

theorem applyMapping_fix (mapping : List (Str × Str)) (s : Str)
    (h : ∀ pr ∈ mapping, containsSub pr.1 (applyMapping mapping s) = false) :
    applyMapping mapping (applyMapping mapping s) = applyMapping mapping s :=
  applyMapping_of_not_contains mapping (applyMapping mapping s) h

/-- C3 (amended): both substitution passes are idempotent on all inputs
whose once-substituted text contains no marker — in particular whenever the
replacement title leaves no marker behind.  (When the title itself
re-introduces a marker, a second application substitutes again; see the
counterexample.) -/
theorem placeholder_passes_idempotent (mapping : List (Str × Str))
    (tree : List Str) (parts : List (Str × Str))
    (htree : ∀ t ∈ tree, ∀ pr ∈ mapping,
      containsSub pr.1 (applyMapping mapping t) = false)
    (hparts : ∀ p ∈ parts, isBodyPartName p.1 = true →
      ∀ pr ∈ mapping, containsSub pr.1 (applyMapping mapping p.2) = false) :
    replaceTextInAllWt mapping (replaceTextInAllWt mapping tree)
        = replaceTextInAllWt mapping tree ∧
    replaceInSavedDocx mapping (replaceInSavedDocx mapping parts)
        = replaceInSavedDocx mapping parts := by
  constructor
  · unfold replaceTextInAllWt
    rw [List.map_map]
    apply List.map_congr_left
    intro t ht
    exact applyMapping_fix mapping t (htree t ht)
  · unfold replaceInSavedDocx
    rw [List.map_map]
    apply List.map_congr_left
    intro p hp
    by_cases hname : isBodyPartName p.1 = true
    · simp only [Function.comp, hname, if_true]
      rw [applyMapping_fix mapping p.2 (hparts p hp hname)]
    · simp only [Function.comp, hname]
      simp [hname]

/-- Counterexample for C3 as stated: with title `"X Add Title"` (which
contains the marker `Add Title` as a proper substring), applying either pass
twice to a tree/package holding the service-name marker differs from
applying it once. -/
theorem placeholder_passes_counterexample :
    (replaceTextInAllWt (serviceNameMapping "X Add Title".data)
        (replaceTextInAllWt (serviceNameMapping "X Add Title".data)
          ["\x7b\x7bSERVICE_NAME\x7d\x7d".data])
      ≠ replaceTextInAllWt (serviceNameMapping "X Add Title".data)
          ["\x7b\x7bSERVICE_NAME\x7d\x7d".data]) ∧
    (replaceInSavedDocx (serviceNameMapping "X Add Title".data)
        (replaceInSavedDocx (serviceNameMapping "X Add Title".data)
          [("word/document.xml".data, "\x7b\x7bSERVICE_NAME\x7d\x7d".data)])
      ≠ replaceInSavedDocx (serviceNameMapping "X Add Title".data)
          [("word/document.xml".data, "\x7b\x7bSERVICE_NAME\x7d\x7d".data)]) := by
  exact ⟨by decide, by decide⟩

/-- Witness: idempotence of both passes for a marker-free title on a
concrete tree and package. -/
theorem placeholder_passes_idempotent_witness :
    replaceTextInAllWt (serviceNameMapping "Acme Cloud".data)
        (replaceTextInAllWt (serviceNameMapping "Acme Cloud".data)
          ["Intro ENTER SERVICE NAME HERE end".data])
      = replaceTextInAllWt (serviceNameMapping "Acme Cloud".data)
          ["Intro ENTER SERVICE NAME HERE end".data] ∧
    replaceInSavedDocx (serviceNameMapping "Acme Cloud".data)
        (replaceInSavedDocx (serviceNameMapping "Acme Cloud".data)
          [("word/document.xml".data, "x \x7b\x7bSERVICE_NAME\x7d\x7d y".data),
           ("docProps/core.xml".data, "\x7b\x7bSERVICE_NAME\x7d\x7d".data)])
      = replaceInSavedDocx (serviceNameMapping "Acme Cloud".data)
          [("word/document.xml".data, "x \x7b\x7bSERVICE_NAME\x7d\x7d y".data),
           ("docProps/core.xml".data, "\x7b\x7bSERVICE_NAME\x7d\x7d".data)] :=
  placeholder_passes_idempotent (serviceNameMapping "Acme Cloud".data)
    ["Intro ENTER SERVICE NAME HERE end".data]
    [("word/document.xml".data, "x \x7b\x7bSERVICE_NAME\x7d\x7d y".data),
     ("docProps/core.xml".data, "\x7b\x7bSERVICE_NAME\x7d\x7d".data)]
    (by decide) (by decide)

theorem findHeadingIndexAux_eq (ht : Str) :
    ∀ (paras : List ParaView) (i : Nat),
      findHeadingIndexAux ht i paras
        = List.findIdx? (fun p => isHeadingStyle p.style && containsSub ht (paraText p))
            paras i := by
  intro paras
  induction paras with
  | nil => intro i; rfl
  | cons p rest ih =>
    intro i
    by_cases hp : (isHeadingStyle p.style && containsSub ht (paraText p)) = true
    · simp [findHeadingIndexAux, hp, List.findIdx?_cons]
    · rw [findHeadingIndexAux, if_neg (by simpa using hp), ih (i + 1),
        List.findIdx?_cons, if_neg (by simpa using hp)]

theorem findHeadingElementAux_eq (ht : Str) :
    ∀ (paras : List ParaView) (i : Nat),
      (findHeadingElementAux ht i paras).map Prod.fst
        = List.findIdx? (fun p => isHeadingStyle p.style
            && containsSub (lowerStr ht) (lowerStr (paraText p))) paras i := by
  intro paras
  induction paras with
  | nil => intro i; rfl
  | cons p rest ih =>
    intro i
    by_cases hp : (isHeadingStyle p.style
        && containsSub (lowerStr ht) (lowerStr (paraText p))) = true
    · simp [findHeadingElementAux, hp, List.findIdx?_cons]
    · rw [findHeadingElementAux, if_neg (by simpa using hp), ih (i + 1),
        List.findIdx?_cons, if_neg (by simpa using hp)]

theorem findHeadingElementAux_mem (ht : Str) :
    ∀ (paras : List ParaView) (i j : Nat) (p : ParaView),
      findHeadingElementAux ht i paras = some (j, p) →
      p ∈ paras ∧ (isHeadingStyle p.style
        && containsSub (lowerStr ht) (lowerStr (paraText p))) = true := by
  intro paras
  induction paras with
  | nil => intro i j p h; cases h
  | cons q rest ih =>
    intro i j p h
    by_cases hq : (isHeadingStyle q.style
        && containsSub (lowerStr ht) (lowerStr (paraText q))) = true
    · rw [findHeadingElementAux, if_pos hq] at h
      have hpq : q = p := (Prod.mk.injEq _ _ _ _ |>.mp (Option.some.injEq _ _ |>.mp h)).2
      subst hpq
      exact ⟨List.mem_cons_self _ _, hq⟩
    · rw [findHeadingElementAux, if_neg (by simpa using hq)] at h
      obtain ⟨hm, hc⟩ := ih (i + 1) j p h
      exact ⟨List.mem_cons_of_mem _ hm, hc⟩

/-- C7 (amended): the two locators return the index of the first
Heading-styled paragraph matching by substring, `none` when there is none —
but with different case behaviour: `_find_heading_index` (section removal)
matches case-sensitively, while `_find_heading_element` (block extraction)
lower-cases both sides, i.e. matches case-insensitively; the element
returned always satisfies the case-insensitive test. -/
theorem heading_locators_spec (paras : List ParaView) (ht : Str) :
    findHeadingIndex paras ht
      = paras.findIdx? (fun p => isHeadingStyle p.style && containsSub ht (paraText p)) ∧
    (findHeadingElement paras ht).map Prod.fst
      = paras.findIdx? (fun p => isHeadingStyle p.style
          && containsSub (lowerStr ht) (lowerStr (paraText p))) ∧
    ∀ i p, findHeadingElement paras ht = some (i, p) →
      p ∈ paras ∧ isHeadingStyle p.style = true ∧
        containsSub (lowerStr ht) (lowerStr (paraText p)) = true := by
  refine ⟨?_, ?_, ?_⟩
  · rw [findHeadingIndex, findHeadingIndexAux_eq]
  · rw [findHeadingElement, findHeadingElementAux_eq]
  · intro i p h
    obtain ⟨hm, hc⟩ := findHeadingElementAux_mem ht paras 0 i p h
    rw [Bool.and_eq_true] at hc
    exact ⟨hm, hc.1, hc.2⟩

/-- Counterexample for C7 as stated: searching for `About PA` in a document
whose only Heading paragraph reads `ABOUT PA`, the block-extraction locator
`_find_heading_element` returns that paragraph although the text does not
contain the heading text case-sensitively (the claim as stated predicts
NotFound for both locators, as `_find_heading_index` indeed returns). -/
theorem heading_locator_case_counterexample :
    findHeadingElement [⟨some "Heading 1".data, [mkRun "ABOUT PA".data]⟩] "About PA".data
      = some (0, ⟨some "Heading 1".data, [mkRun "ABOUT PA".data]⟩) ∧
    containsSub "About PA".data
        (paraText ⟨some "Heading 1".data, [mkRun "ABOUT PA".data]⟩) = false ∧
    findHeadingIndex [⟨some "Heading 1".data, [mkRun "ABOUT PA".data]⟩] "About PA".data
      = none :=
  ⟨by decide, by decide, by decide⟩

theorem dropWhile_head_false {p : Char → Bool} :
    ∀ {l : Str} {c : Char} {r : Str}, l.dropWhile p = c :: r → p c = false := by
  intro l
  induction l with
  | nil => intro c r h; cases h
  | cons a t ih =>
    intro c r h
    by_cases hp : p a = true
    · rw [List.dropWhile_cons, if_pos hp] at h
      exact ih h
    · rw [List.dropWhile_cons, if_neg hp] at h
      injection h with h1 _
      rw [← h1]
      simpa using hp

theorem pyStrip_head_not_space {s : Str} {c : Char} {r : Str}
    (h : pyStrip s = c :: r) : isPySpace c = false := by
  unfold pyStrip at h
  have hsuf : (s.dropWhile isPySpace).reverse.dropWhile isPySpace
      <:+ (s.dropWhile isPySpace).reverse := List.dropWhile_suffix _
  have hpre : ((s.dropWhile isPySpace).reverse.dropWhile isPySpace).reverse
      <+: s.dropWhile isPySpace := by
    have h2 := (@List.reverse_prefix Char
      ((s.dropWhile isPySpace).reverse.dropWhile isPySpace)
      ((s.dropWhile isPySpace).reverse)).mpr hsuf
    rwa [List.reverse_reverse] at h2
  obtain ⟨t, ht⟩ := hpre
  rw [h] at ht
  have hAc : s.dropWhile isPySpace = c :: (r ++ t) := by
    rw [← ht]
    simp
  exact dropWhile_head_false hAc

theorem pyStrip_last_not_space {s : Str} {c : Char} {r : Str}
    (h : (pyStrip s).reverse = c :: r) : isPySpace c = false := by
  unfold pyStrip at h
  rw [List.reverse_reverse] at h
  exact dropWhile_head_false h

theorem pyStrip_eq_self {l : Str}
    (hh : ∀ c r, l = c :: r → isPySpace c = false)
    (hl : ∀ c r, l.reverse = c :: r → isPySpace c = false) : pyStrip l = l := by
  unfold pyStrip
  have h1 : l.dropWhile isPySpace = l := by
    cases hc : l with
    | nil => rfl
    | cons c r => rw [List.dropWhile_cons, if_neg (by simp [hh c r hc])]
  rw [h1]
  have h2 : l.reverse.dropWhile isPySpace = l.reverse := by
    cases hc : l.reverse with
    | nil => rfl
    | cons c r => rw [List.dropWhile_cons, if_neg (by simp [hl c r hc])]
  rw [h2, List.reverse_reverse]

theorem pyStrip_idem (s : Str) : pyStrip (pyStrip s) = pyStrip s :=
  pyStrip_eq_self (fun _ _ h => pyStrip_head_not_space h)
    (fun _ _ h => pyStrip_last_not_space h)

theorem isPrefixOf_self (l : Str) : l.isPrefixOf l = true := by
  induction l with
  | nil => rfl
  | cons c r ih => simp [List.isPrefixOf, ih]

theorem containsSub_append_self (pre pat : Str) :
    containsSub pat (pre ++ pat) = true := by
  induction pre with
  | nil =>
    cases pat with
    | nil => rfl
    | cons c r => simp [containsSub, isPrefixOf_self]
  | cons p pre' ih => simp [containsSub, ih]

theorem pricingTitleText_fix (t0 sn : Str)
    (hsn : sn ≠ [])
    (hl : sn.getLast?.all (fun c => !isPySpace c) = true)
    (hs0 : pyStrip t0 ≠ []) :
    pricingTitleText (pricingTitleText t0 sn) sn = pricingTitleText t0 sn := by
  by_cases hc : containsSub sn (pyStrip t0) = true
  · have h1 : pricingTitleText t0 sn = pyStrip t0 := by
      unfold pricingTitleText
      rw [if_pos hc]
    rw [h1]
    unfold pricingTitleText
    rw [pyStrip_idem]
    rw [if_pos hc]
  · have hc' : containsSub sn (pyStrip t0) = false := by simpa using hc
    have h1 : pricingTitleText t0 sn = pyStrip t0 ++ " - ".data ++ sn := by
      unfold pricingTitleText
      simp [hc']
    rw [h1]
    have hhead : ∀ c r, (pyStrip t0 ++ " - ".data ++ sn) = c :: r →
        isPySpace c = false := by
      intro c r h
      cases hA : pyStrip t0 with
      | nil => exact absurd hA hs0
      | cons a t =>
        rw [hA] at h
        simp only [List.cons_append] at h
        injection h with h2 _
        rw [← h2]
        exact pyStrip_head_not_space hA
    have hlast : ∀ c r, (pyStrip t0 ++ " - ".data ++ sn).reverse = c :: r →
        isPySpace c = false := by
      intro c r h
      rw [List.reverse_append] at h
      cases hsnr : sn.reverse with
      | nil => exact absurd (List.reverse_eq_nil_iff.mp hsnr) hsn
      | cons b t' =>
        rw [hsnr] at h
        simp only [List.cons_append] at h
        injection h with h2 _
        have hb : sn.getLast? = some b := by
          rw [← List.head?_reverse, hsnr]
          rfl
        rw [hb] at hl
        simp at hl
        rw [← h2]
        simpa using hl
    have h2 := pyStrip_eq_self hhead hlast
    have h3 : containsSub sn (pyStrip t0 ++ " - ".data ++ sn) = true :=
      containsSub_append_self (pyStrip t0 ++ " - ".data) sn
    unfold pricingTitleText
    rw [h2]
    rw [if_pos h3]

theorem replaceTitleHead1_anyH1 (sn : Str) :
    ∀ paras : List ParaView,
      paras.any (fun p => p.style == some "Heading 1".data) = true →
      (replaceTitleHead1 sn paras).any (fun p => p.style == some "Heading 1".data)
        = true := by
  intro paras
  induction paras with
  | nil => intro h; cases h
  | cons p rest ih =>
    intro h
    by_cases hp : (p.style == some "Heading 1".data) = true
    · simp [replaceTitleHead1, hp]
    · rw [List.any_cons] at h
      rw [replaceTitleHead1, if_neg (by simpa using hp), List.any_cons]
      rcases Bool.or_eq_true_iff.mp h with h1 | h1
      · exact absurd h1 hp
      · rw [ih h1]
        simp

theorem replaceTitleHead1_idem (sn : Str)
    (hsn : sn ≠ [])
    (hl : sn.getLast?.all (fun c => !isPySpace c) = true) :
    ∀ paras : List ParaView,
      (∀ p ∈ paras, p.style = some "Heading 1".data → pyStrip (paraText p) ≠ []) →
      replaceTitleHead1 sn (replaceTitleHead1 sn paras) = replaceTitleHead1 sn paras := by
  intro paras
  induction paras with
  | nil => intro _; rfl
  | cons p rest ih =>
    intro hstrip
    by_cases hp : (p.style == some "Heading 1".data) = true
    · rw [replaceTitleHead1, if_pos hp, replaceTitleHead1, if_pos hp]
      have hstyle : p.style = some "Heading 1".data := by
        simpa using hp
      have hs0 : pyStrip (paraText p) ≠ [] :=
        hstrip p (List.mem_cons_self _ _) hstyle
      have htext : paraText ⟨p.style, [boldRun (pricingTitleText (paraText p) sn)]⟩
          = pricingTitleText (paraText p) sn := by
        simp [paraText, runsText, boldRun]
      rw [htext, pricingTitleText_fix (paraText p) sn hsn hl hs0]
    · rw [replaceTitleHead1, if_neg (by simpa using hp),
        replaceTitleHead1, if_neg (by simpa using hp)]
      rw [ih (fun q hq hsty => hstrip q (List.mem_cons_of_mem _ hq) hsty)]

/-- C10 (amended): the pricing generator's title replacement is idempotent
on the Heading-1 path whenever the service name is non-empty without
trailing whitespace and the first Heading-1 text does not strip to
the empty string.  (A service name with trailing whitespace is appended
again on the second application; see the counterexample.) -/
theorem pricing_replace_title_idem (paras : List ParaView) (sn : Str)
    (hH1 : paras.any (fun p => p.style == some "Heading 1".data) = true)
    (hsn : sn ≠ [])
    (hl : sn.getLast?.all (fun c => !isPySpace c) = true)
    (hstrip : ∀ p ∈ paras, p.style = some "Heading 1".data → pyStrip (paraText p) ≠ []) :
    pricingReplaceTitle (pricingReplaceTitle paras sn) sn
      = pricingReplaceTitle paras sn := by
  unfold pricingReplaceTitle
  rw [if_pos hH1, if_pos (replaceTitleHead1_anyH1 sn paras hH1)]
  exact replaceTitleHead1_idem sn hsn hl paras hstrip

/-- Counterexample for C10 as stated: with a Heading-1 text `T` and service
name `"X "` (trailing space), the first application yields `T - X ` but the
second yields `T - X - X ` — the strip of the once-updated text no longer
contains the service name, so the suffix is appended again. -/
theorem pricing_replace_title_counterexample :
    (pricingReplaceTitle (pricingReplaceTitle
        [⟨some "Heading 1".data, [mkRun "T".data]⟩] "X ".data) "X ".data).map paraText
      ≠ (pricingReplaceTitle
        [⟨some "Heading 1".data, [mkRun "T".data]⟩] "X ".data).map paraText := by
  decide

/-- Witness: idempotence at a concrete pricing document and service name. -/
theorem pricing_replace_title_idem_witness :
    pricingReplaceTitle (pricingReplaceTitle
        [⟨some "Heading 1".data, [mkRun "PA CONSULTING GCLOUD PRICING DOCUMENT".data]⟩]
        "Cloud Backup".data) "Cloud Backup".data
      = pricingReplaceTitle
        [⟨some "Heading 1".data, [mkRun "PA CONSULTING GCLOUD PRICING DOCUMENT".data]⟩]
        "Cloud Backup".data :=
  pricing_replace_title_idem
    [⟨some "Heading 1".data, [mkRun "PA CONSULTING GCLOUD PRICING DOCUMENT".data]⟩]
    "Cloud Backup".data (by decide) (by decide) (by decide) (by decide)

theorem insertAfterId_at (pid : Nat) (n : PNode) :
    ∀ (X : List PNode) (m : PNode) (Y : List PNode), m.id = pid →
      pid ∉ X.map PNode.id →
      insertAfterId pid n (X ++ m :: Y) = X ++ m :: n :: Y := by
  intro X
  induction X with
  | nil => intro m Y hm _; simp [insertAfterId, hm]
  | cons a A ih =>
    intro m Y hm hx
    simp only [List.map_cons, List.mem_cons] at hx
    push_neg at hx
    have ha : a.id ≠ pid := fun h => hx.1 h.symm
    simp only [List.cons_append, insertAfterId, ha, if_false, List.append_eq]
    rw [ih m Y hm hx.2]

theorem insertAfterId_split (pid : Nat) (n : PNode) :
    ∀ body : List PNode, ∃ A B, body = A ++ B ∧ insertAfterId pid n body = A ++ n :: B := by
  intro body
  induction body with
  | nil => exact ⟨[], [], rfl, rfl⟩
  | cons m rest ih =>
    by_cases h : m.id = pid
    · exact ⟨[m], rest, rfl, by simp [insertAfterId, h]⟩
    · obtain ⟨A, B, hb, hi⟩ := ih
      refine ⟨m :: A, B, by rw [hb]; rfl, ?_⟩
      simp only [insertAfterId, h, if_false, List.cons_append]
      rw [hi]

theorem mem_insertAfterId_self (pid : Nat) (n : PNode) (body : List PNode) :
    n ∈ insertAfterId pid n body := by
  obtain ⟨A, B, _, hi⟩ := insertAfterId_split pid n body
  rw [hi]
  exact List.mem_append_right _ (List.mem_cons_self _ _)

theorem mem_insertAfterId_of_mem {pid : Nat} {n q : PNode} {body : List PNode}
    (h : q ∈ body) : q ∈ insertAfterId pid n body := by
  obtain ⟨A, B, hb, hi⟩ := insertAfterId_split pid n body
  rw [hi]
  rw [hb] at h
  rcases List.mem_append.mp h with h1 | h1
  · exact List.mem_append_left _ h1
  · exact List.mem_append_right _ (List.mem_cons_of_mem _ h1)

theorem nodup_mid_split {X : List PNode} {m : PNode} {Y : List PNode}
    (h : ((X ++ m :: Y).map PNode.id).Nodup) :
    m.id ∉ X.map PNode.id ∧ m.id ∉ Y.map PNode.id := by
  rw [List.map_append, List.map_cons, List.nodup_middle, List.nodup_cons,
    List.mem_append] at h
  push_neg at h
  exact ⟨h.1.1, h.1.2⟩

theorem wf_insert {st : DState} (pid : Nat) (b : Block) (h : wfState st) :
    wfState ⟨insertAfterId pid ⟨st.nextId, b⟩ st.body, st.nextId + 1⟩ := by
  obtain ⟨A, B, hb, hi⟩ := insertAfterId_split pid ⟨st.nextId, b⟩ st.body
  obtain ⟨hnd, hbd⟩ := h
  rw [hb, List.map_append] at hnd
  constructor
  · show ((insertAfterId pid ⟨st.nextId, b⟩ st.body).map PNode.id).Nodup
    rw [hi, List.map_append, List.map_cons, List.nodup_middle, List.nodup_cons]
    refine ⟨?_, hnd⟩
    rw [← List.map_append]
    show st.nextId ∉ (A ++ B).map PNode.id
    intro hmem
    obtain ⟨q, hq, hqid⟩ := List.mem_map.mp hmem
    have : q.id < st.nextId := hbd q (by rw [hb]; exact hq)
    omega
  · intro q hq
    show q.id < st.nextId + 1
    rw [hi] at hq
    rcases List.mem_append.mp hq with h1 | h1
    · have : q.id < st.nextId := hbd q (by rw [hb]; exact List.mem_append_left _ h1)
      omega
    · rcases List.mem_cons.mp h1 with h2 | h2
      · rw [h2]
        exact Nat.lt_succ_self _
      · have : q.id < st.nextId := hbd q (by rw [hb]; exact List.mem_append_right _ h2)
        omega

theorem addRunAtId_noop (pid : Nat) (r : Run) :
    ∀ body : List PNode, pid ∉ body.map PNode.id → addRunAtId pid r body = body := by
  intro body
  induction body with
  | nil => intro _; rfl
  | cons a A ih =>
    intro h
    simp only [List.map_cons, List.mem_cons] at h
    push_neg at h
    have ha : a.id ≠ pid := fun h2 => h.1 h2.symm
    simp only [addRunAtId, List.map_cons, ha, if_false]
    have := ih h.2
    unfold addRunAtId at this
    rw [this]

theorem addRunAtId_at (pid : Nat) (r : Run) (X : List PNode) (sty : Option Str)
    (rs : List Run) (Y : List PNode) (hX : pid ∉ X.map PNode.id)
    (hY : pid ∉ Y.map PNode.id) :
    addRunAtId pid r (X ++ ⟨pid, Block.para sty rs⟩ :: Y)
      = X ++ ⟨pid, Block.para sty (rs ++ [r])⟩ :: Y := by
  unfold addRunAtId
  rw [List.map_append, List.map_cons]
  have h1 : X.map (fun n =>
      if n.id = pid then
        match n.blk with
        | Block.para sty rs => ⟨n.id, Block.para sty (rs ++ [r])⟩
        | _ => n
      else n) = X := by
    have := addRunAtId_noop pid r X hX
    unfold addRunAtId at this
    exact this
  have h2 : Y.map (fun n =>
      if n.id = pid then
        match n.blk with
        | Block.para sty rs => ⟨n.id, Block.para sty (rs ++ [r])⟩
        | _ => n
      else n) = Y := by
    have := addRunAtId_noop pid r Y hY
    unfold addRunAtId at this
    exact this
  rw [h1, h2]
  simp

theorem ids_addRunAtId (pid : Nat) (r : Run) (body : List PNode) :
    (addRunAtId pid r body).map PNode.id = body.map PNode.id := by
  induction body with
  | nil => rfl
  | cons a A ih =>
    simp only [addRunAtId, List.map_cons] at *
    by_cases h : a.id = pid
    · cases hb : a.blk <;> simp [h, hb, ih]
    · simp [h, ih]

theorem wf_addRun {st : DState} (pid : Nat) (r : Run) (h : wfState st) :
    wfState (addRun st pid r) := by
  obtain ⟨hnd, hbd⟩ := h
  constructor
  · show ((addRunAtId pid r st.body).map PNode.id).Nodup
    rw [ids_addRunAtId]
    exact hnd
  · intro q hq
    obtain ⟨n, hn, hqn⟩ := List.mem_map.mp hq
    have hid : q.id = n.id := by
      rw [← hqn]
      by_cases h1 : n.id = pid
      · cases hb : n.blk <;> simp [h1, hb]
      · simp [h1]
    show q.id < st.nextId
    rw [hid]
    exact hbd n hn

theorem lin_ipa {st : DState} {X Y seg : List PNode} {cur : Nat}
    (h : LinInv st X Y seg cur) (txt : Str) (sty : Option Str) :
    (insertParagraphAfter st cur txt sty).2 = st.nextId ∧
    (insertParagraphAfter st cur txt sty).1.nextId = st.nextId + 1 ∧
    LinInv (insertParagraphAfter st cur txt sty).1 X Y
      (seg ++ [⟨st.nextId, paraOf sty txt⟩]) st.nextId := by
  obtain ⟨hbody, hwf, pre, n, hseg, hid⟩ := h
  refine ⟨rfl, rfl, ?_, ?_, seg, ⟨st.nextId, paraOf sty txt⟩, rfl, rfl⟩
  · show insertAfterId cur ⟨st.nextId, paraOf sty txt⟩ st.body
      = X ++ (seg ++ [⟨st.nextId, paraOf sty txt⟩]) ++ Y
    have hb2 : st.body = (X ++ pre) ++ n :: Y := by
      rw [hbody, hseg]
      simp
    have hnotm : cur ∉ (X ++ pre).map PNode.id := by
      have := hwf.1
      rw [hb2] at this
      have h2 := (nodup_mid_split this).1
      rw [← hid]
      exact h2
    rw [hb2, insertAfterId_at cur _ (X ++ pre) n Y hid hnotm, hseg]
    simp
  · show wfState ⟨insertAfterId cur ⟨st.nextId, paraOf sty txt⟩ st.body, st.nextId + 1⟩
    exact wf_insert cur _ hwf

theorem lin_addRun {st : DState} {X Y pre : List PNode} {cur : Nat} {sty : Option Str}
    {rs : List Run}
    (h : LinInv st X Y (pre ++ [⟨cur, Block.para sty rs⟩]) cur) (r : Run) :
    (addRun st cur r).nextId = st.nextId ∧
    LinInv (addRun st cur r) X Y (pre ++ [⟨cur, Block.para sty (rs ++ [r])⟩]) cur := by
  obtain ⟨hbody, hwf, _, _, _, _⟩ := h
  refine ⟨rfl, ?_, wf_addRun cur r hwf, pre,
    ⟨cur, Block.para sty (rs ++ [r])⟩, rfl, rfl⟩
  show addRunAtId cur r st.body
    = X ++ (pre ++ [⟨cur, Block.para sty (rs ++ [r])⟩]) ++ Y
  have hb2 : st.body = (X ++ pre) ++ ⟨cur, Block.para sty rs⟩ :: Y := by
    rw [hbody]
    simp
  have hnd := hwf.1
  rw [hb2] at hnd
  obtain ⟨hX, hY⟩ := nodup_mid_split hnd
  rw [hb2, addRunAtId_at cur r (X ++ pre) sty rs Y hX hY]
  simp

theorem lin_numbered :
    ∀ (items : List Str) (st : DState) (X Y seg : List PNode) (cur k : Nat),
      LinInv st X Y seg cur →
      ∃ ns cur2,
        (insertNumberedGo st (some cur) k items).2 = some cur2 ∧
        LinInv (insertNumberedGo st (some cur) k items).1 X Y (seg ++ ns) cur2 ∧
        ns.map PNode.blk = numBlks k items := by
  intro items
  induction items with
  | nil =>
    intro st X Y seg cur k h
    exact ⟨[], cur, rfl, by simpa using h, rfl⟩
  | cons it rest ih =>
    intro st X Y seg cur k h
    obtain ⟨hret, hnext, hL1⟩ := lin_ipa h [] none
    have heq : insertNumberedGo st (some cur) k (it :: rest)
        = insertNumberedGo
            (addRun (addRun (insertParagraphAfter st cur [] none).1
              (insertParagraphAfter st cur [] none).2 (numRun (numText k)))
              (insertParagraphAfter st cur [] none).2 (itemRun it))
            (some (insertParagraphAfter st cur [] none).2) (k + 1) rest := rfl
    rw [heq, hret]
    have hL1' : LinInv (insertParagraphAfter st cur [] none).1 X Y
        (seg ++ [⟨st.nextId, Block.para none []⟩]) st.nextId := hL1
    obtain ⟨hn2, hL2⟩ := lin_addRun hL1' (numRun (numText k))
    obtain ⟨hn3, hL3⟩ := lin_addRun hL2 (itemRun it)
    obtain ⟨ns, cur2, hr1, hr2, hr3⟩ := ih _ X Y _ st.nextId (k + 1) hL3
    refine ⟨⟨st.nextId, Block.para none (([] ++ [numRun (numText k)]) ++ [itemRun it])⟩
      :: ns, cur2, hr1, ?_, ?_⟩
    · have : (seg ++ [(⟨st.nextId, Block.para none (([] ++ [numRun (numText k)])
          ++ [itemRun it])⟩ : PNode)]) ++ ns
        = seg ++ (⟨st.nextId, Block.para none (([] ++ [numRun (numText k)])
          ++ [itemRun it])⟩ :: ns) := by simp
      rw [← this]
      exact hr2
    · simp only [List.map_cons, hr3, numBlks]
      simp

theorem lin_addParaStep {st : DState} {X Y seg : List PNode} {cur : Nat}
    (O : Option Nat) (hO : O = some cur) (h : LinInv st X Y seg cur)
    (txt : Str) (sty : Option Str) :
    (addParaStep st O txt sty).2 = st.nextId ∧
    (addParaStep st O txt sty).1.nextId = st.nextId + 1 ∧
    LinInv (addParaStep st O txt sty).1 X Y
      (seg ++ [⟨st.nextId, paraOf sty txt⟩]) st.nextId := by
  subst hO
  exact lin_ipa h txt sty

theorem lin_spacer {st : DState} {X Y seg : List PNode} {cur : Nat}
    (O : Option Nat) (hO : O = some cur) (h : LinInv st X Y seg cur) :
    (spacerAfter st O).2 = st.nextId ∧
    (spacerAfter st O).1.nextId = st.nextId + 1 ∧
    LinInv (spacerAfter st O).1 X Y
      (seg ++ [⟨st.nextId, Block.para none []⟩]) st.nextId := by
  subst hO
  exact lin_ipa h [] none

theorem lin_numberedList {st : DState} {X Y seg : List PNode} {cur : Nat}
    (O : Option Nat) (hO : O = some cur) (h : LinInv st X Y seg cur)
    (items : List Str) :
    ∃ ns cur2,
      (insertNumberedListBlock st O items).2 = some cur2 ∧
      LinInv (insertNumberedListBlock st O items).1 X Y (seg ++ ns) cur2 ∧
      ns.map PNode.blk = numBlks 1 items := by
  subst hO
  exact lin_numbered items st X Y seg cur 1 h

theorem lin_icbCore {st : DState} {X Y seg : List PNode} {cur : Nat}
    (h : LinInv st X Y seg cur) (title desc : Str) (features benefits : List Str) :
    ∃ ns,
      LinInv (icbCore st (some cur) title desc features benefits).1 X Y (seg ++ ns)
        (icbCore st (some cur) title desc features benefits).2 ∧
      ns.map PNode.blk = coreBlks title desc features benefits := by
  simp only [icbCore]
  obtain ⟨e1, e1n, hL1⟩ := lin_addParaStep (some cur) rfl h title (some "Heading 1".data)
  generalize hg1 : addParaStep st (some cur) title (some "Heading 1".data) = A1
  rw [hg1] at e1 e1n hL1
  obtain ⟨e2, e2n, hL2⟩ := lin_addParaStep (some A1.2) (by rw [e1]) hL1
    "Short Service Description".data (some "Heading 2".data)
  generalize hg2 : addParaStep A1.1 (some A1.2) "Short Service Description".data
    (some "Heading 2".data) = A2
  rw [hg2] at e2 e2n hL2
  obtain ⟨e3, e3n, hL3⟩ := lin_addParaStep (some A2.2) (by rw [e2]) hL2
    desc (some "Normal".data)
  generalize hg3 : addParaStep A2.1 (some A2.2) desc (some "Normal".data) = A3
  rw [hg3] at e3 e3n hL3
  obtain ⟨e4, e4n, hL4⟩ := lin_addParaStep (some A3.2) (by rw [e3]) hL3
    "Key Service Features".data (some "Heading 2".data)
  generalize hg4 : addParaStep A3.1 (some A3.2) "Key Service Features".data
    (some "Heading 2".data) = A4
  rw [hg4] at e4 e4n hL4
  obtain ⟨ns1, curA, hr1, hr2, hr3⟩ := lin_numberedList (some A4.2) (by rw [e4]) hL4
    (features.take 10)
  generalize hgn1 : insertNumberedListBlock A4.1 (some A4.2) (features.take 10) = N1
  rw [hgn1] at hr1 hr2
  obtain ⟨f1, f1n, hL5⟩ := lin_spacer N1.2 hr1 hr2
  generalize hgb1 : spacerAfter N1.1 N1.2 = B1
  rw [hgb1] at f1 f1n hL5
  obtain ⟨e5, e5n, hL6⟩ := lin_addParaStep (some B1.2) (by rw [f1]) hL5
    "Key Service Benefits".data (some "Heading 2".data)
  generalize hg5 : addParaStep B1.1 (some B1.2) "Key Service Benefits".data
    (some "Heading 2".data) = A5
  rw [hg5] at e5 e5n hL6
  obtain ⟨ns2, curB, hs1, hs2, hs3⟩ := lin_numberedList (some A5.2) (by rw [e5]) hL6
    (benefits.take 10)
  generalize hgn2 : insertNumberedListBlock A5.1 (some A5.2) (benefits.take 10) = N2
  rw [hgn2] at hs1 hs2
  obtain ⟨f2, f2n, hL7⟩ := lin_spacer N2.2 hs1 hs2
  rw [f2]
  simp only [List.append_assoc] at hL7
  refine ⟨_, hL7, ?_⟩
  simp [coreBlks, hr3, hs3]

theorem zone_mid {X Y seg : List PNode} {m : PNode} {P Q : List PNode}
    (hseg : seg = P ++ m :: Q)
    (hnd : ((X ++ seg ++ Y).map PNode.id).Nodup) :
    m.id ∉ (X ++ P).map PNode.id ∧ m.id ∉ (Q ++ Y).map PNode.id := by
  subst hseg
  have hre : X ++ (P ++ m :: Q) ++ Y = (X ++ P) ++ m :: (Q ++ Y) := by simp
  rw [hre] at hnd
  exact nodup_mid_split hnd

theorem zone_ipa {st : DState} {X Y seg : List PNode} {pid : Nat}
    (h : ZoneInv st X Y seg) (hp : pid ∈ seg.map PNode.id) (txt : Str) (sty : Option Str) :
    ∃ seg2,
      ZoneInv (insertParagraphAfter st pid txt sty).1 X Y seg2 ∧
      (∀ i ∈ seg.map PNode.id, i ∈ seg2.map PNode.id) ∧
      (insertParagraphAfter st pid txt sty).2 ∈ seg2.map PNode.id := by
  obtain ⟨hbody, hwf⟩ := h
  obtain ⟨m, hm, hmid⟩ := List.mem_map.mp hp
  obtain ⟨P, Q, hseg⟩ := List.append_of_mem hm
  have hnd := hwf.1
  rw [hbody] at hnd
  obtain ⟨hXP, _⟩ := zone_mid hseg hnd
  refine ⟨P ++ m :: ⟨st.nextId, paraOf sty txt⟩ :: Q, ⟨?_, ?_⟩, ?_, ?_⟩
  · show insertAfterId pid ⟨st.nextId, paraOf sty txt⟩ st.body
      = X ++ (P ++ m :: ⟨st.nextId, paraOf sty txt⟩ :: Q) ++ Y
    have hre : X ++ (P ++ m :: Q) ++ Y = (X ++ P) ++ m :: (Q ++ Y) := by simp
    rw [hbody, hseg, hre,
      insertAfterId_at pid _ (X ++ P) m (Q ++ Y) hmid (hmid ▸ hXP)]
    simp
  · show wfState ⟨insertAfterId pid ⟨st.nextId, paraOf sty txt⟩ st.body, st.nextId + 1⟩
    exact wf_insert pid (paraOf sty txt) hwf
  · intro i hi
    rw [hseg] at hi
    simp only [List.map_append, List.map_cons, List.mem_append, List.mem_cons] at hi ⊢
    tauto
  · show st.nextId ∈ (P ++ m :: ⟨st.nextId, paraOf sty txt⟩ :: Q).map PNode.id
    simp

theorem zone_addRun {st : DState} {X Y seg : List PNode} {pid : Nat}
    (h : ZoneInv st X Y seg) (hp : pid ∈ seg.map PNode.id) (r : Run) :
    ∃ seg2,
      ZoneInv (addRun st pid r) X Y seg2 ∧
      seg2.map PNode.id = seg.map PNode.id ∧
      (addRun st pid r).nextId = st.nextId := by
  obtain ⟨hbody, hwf⟩ := h
  obtain ⟨m, hm, hmid⟩ := List.mem_map.mp hp
  obtain ⟨P, Q, hseg⟩ := List.append_of_mem hm
  have hnd := hwf.1
  rw [hbody] at hnd
  obtain ⟨hXP, hQY⟩ := zone_mid hseg hnd
  have hX : pid ∉ X.map PNode.id := fun hx =>
    (hmid ▸ hXP) (by rw [List.map_append]; exact List.mem_append_left _ hx)
  have hY : pid ∉ Y.map PNode.id := fun hy =>
    (hmid ▸ hQY) (by rw [List.map_append]; exact List.mem_append_right _ hy)
  refine ⟨addRunAtId pid r seg, ⟨?_, wf_addRun pid r hwf⟩, ids_addRunAtId pid r seg, rfl⟩
  show addRunAtId pid r st.body = X ++ addRunAtId pid r seg ++ Y
  rw [hbody]
  have dX := addRunAtId_noop pid r X hX
  have dY := addRunAtId_noop pid r Y hY
  unfold addRunAtId at dX dY ⊢
  rw [List.map_append, List.map_append, dX, dY]

theorem zone_awiChild {fetch : Str → Option Str} {st : DState} {X Y seg : List PNode}
    {c : Nat} (h : ZoneInv st X Y seg) (hc : c ∈ seg.map PNode.id) (child : HtmlNode) :
    ∃ seg2,
      ZoneInv (awiChild fetch (st, c) child).1 X Y seg2 ∧
      (∀ i ∈ seg.map PNode.id, i ∈ seg2.map PNode.id) ∧
      (awiChild fetch (st, c) child).2 ∈ seg2.map PNode.id := by
  have hgen : ∀ r : Run,
      ∃ seg2, ZoneInv (addRun st c r) X Y seg2 ∧
        (∀ i ∈ seg.map PNode.id, i ∈ seg2.map PNode.id) ∧ c ∈ seg2.map PNode.id := by
    intro r
    obtain ⟨seg2, hz, heq, _⟩ := zone_addRun h hc r
    exact ⟨seg2, hz, fun i hi => by rw [heq]; exact hi, by rw [heq]; exact hc⟩
  cases child with
  | text s => exact hgen (mkRun s)
  | elem nm src cs =>
    simp only [awiChild]
    split_ifs with h1 h2 h3 h4
    · exact hgen (boldRun (getTextF cs))
    · exact hgen (italicRun (getTextF cs))
    · exact hgen breakRun
    · cases src with
      | none => exact ⟨seg, h, fun i hi => hi, hc⟩
      | some u =>
        simp only [awiImg]
        split_ifs with he
        · exact ⟨seg, h, fun i hi => hi, hc⟩
        · obtain ⟨seg2, hz2, hm2, hc2⟩ := zone_ipa h hc [] none
          cases hfu : fetch u with
          | some pic =>
            obtain ⟨seg3, hz3, heq3, _⟩ := zone_addRun hz2 hc2 (imgRun pic)
            exact ⟨seg3, hz3, fun i hi => by rw [heq3]; exact hm2 i hi,
              by rw [heq3]; exact hc2⟩
          | none =>
            obtain ⟨seg3, hz3, heq3, _⟩ := zone_addRun hz2 hc2
              (mkRun ("[image: ".data ++ u ++ "]".data))
            exact ⟨seg3, hz3, fun i hi => by rw [heq3]; exact hm2 i hi,
              by rw [heq3]; exact hc2⟩
    · exact hgen (mkRun (getTextF cs))

theorem zone_awiChildren {fetch : Str → Option Str} {X Y : List PNode} :
    ∀ (f : HtmlForest) (st : DState) (seg : List PNode) (c : Nat),
      ZoneInv st X Y seg → c ∈ seg.map PNode.id →
      ∃ seg2,
        ZoneInv (awiChildren fetch (st, c) f).1 X Y seg2 ∧
        (∀ i ∈ seg.map PNode.id, i ∈ seg2.map PNode.id) ∧
        (awiChildren fetch (st, c) f).2 ∈ seg2.map PNode.id
  | HtmlForest.nil, st, seg, c, h, hc => ⟨seg, h, fun i hi => hi, hc⟩
  | HtmlForest.cons ch t, st, seg, c, h, hc => by
    obtain ⟨seg2, hz2, hm2, hc2⟩ := zone_awiChild h hc ch
    obtain ⟨seg3, hz3, hm3, hc3⟩ := zone_awiChildren t (awiChild fetch (st, c) ch).1
      seg2 (awiChild fetch (st, c) ch).2 hz2 hc2
    exact ⟨seg3, hz3, fun i hi => hm3 i (hm2 i hi), hc3⟩

theorem zone_awi {fetch : Str → Option Str} {st : DState} {X Y seg : List PNode}
    {aid : Nat} (h : ZoneInv st X Y seg) (ha : aid ∈ seg.map PNode.id)
    (inp : Sum Str HtmlNode) (sty : Option Str) :
    ∃ seg2,
      ZoneInv (awi fetch st aid inp sty).1 X Y seg2 ∧
      (∀ i ∈ seg.map PNode.id, i ∈ seg2.map PNode.id) ∧
      (awi fetch st aid inp sty).2 ∈ seg2.map PNode.id := by
  obtain ⟨seg2, hz2, hm2, hc2⟩ := zone_ipa h ha [] sty
  match inp with
  | Sum.inl s =>
    obtain ⟨seg3, hz3, heq3, _⟩ := zone_addRun hz2 hc2 (mkRun s)
    exact ⟨seg3, hz3, fun i hi => by rw [heq3]; exact hm2 i hi, by rw [heq3]; exact hc2⟩
  | Sum.inr (HtmlNode.text s) =>
    obtain ⟨seg3, hz3, heq3, _⟩ := zone_addRun hz2 hc2 (mkRun s)
    exact ⟨seg3, hz3, fun i hi => by rw [heq3]; exact hm2 i hi, by rw [heq3]; exact hc2⟩
  | Sum.inr (HtmlNode.elem nm src cs) =>
    obtain ⟨seg3, hz3, hm3, hc3⟩ := zone_awiChildren cs
      (insertParagraphAfter st aid [] sty).1 seg2
      (insertParagraphAfter st aid [] sty).2 hz2 hc2
    exact ⟨seg3, hz3, fun i hi => hm3 i (hm2 i hi), hc3⟩

theorem zone_ulLiLoop {X Y : List PNode} (sty : Str) :
    ∀ (f : HtmlForest) (st : DState) (seg : List PNode) (c : Nat),
      ZoneInv st X Y seg → c ∈ seg.map PNode.id →
      ∃ seg2,
        ZoneInv (ulLiLoop sty (st, c) f).1 X Y seg2 ∧
        (∀ i ∈ seg.map PNode.id, i ∈ seg2.map PNode.id) ∧
        (ulLiLoop sty (st, c) f).2 ∈ seg2.map PNode.id
  | HtmlForest.nil, st, seg, c, h, hc => ⟨seg, h, fun i hi => hi, hc⟩
  | HtmlForest.cons ch t, st, seg, c, h, hc => by
    match ch with
    | HtmlNode.text s => exact zone_ulLiLoop sty t st seg c h hc
    | HtmlNode.elem nm src cs =>
      simp only [ulLiLoop]
      split_ifs with hli
      · obtain ⟨seg2, hz2, hm2, hc2⟩ := zone_ipa h hc
          (getText (HtmlNode.elem nm src cs)) (some sty)
        obtain ⟨seg3, hz3, hm3, hc3⟩ := zone_ulLiLoop sty t
          (insertParagraphAfter st c (getText (HtmlNode.elem nm src cs)) (some sty)).1
          seg2
          (insertParagraphAfter st c (getText (HtmlNode.elem nm src cs)) (some sty)).2
          hz2 hc2
        exact ⟨seg3, hz3, fun i hi => hm3 i (hm2 i hi), hc3⟩
      · exact zone_ulLiLoop sty t st seg c h hc

theorem zone_insertHtmlAux (fetch : Str → Option Str) {X Y : List PNode} {aid : Nat} :
    ∀ (f : HtmlForest) (st : DState) (seg : List PNode) (last : Nat),
      ZoneInv st X Y seg → aid ∈ seg.map PNode.id → last ∈ seg.map PNode.id →
      ∃ seg2,
        ZoneInv (insertHtmlAux fetch aid st last f).1 X Y seg2 ∧
        (∀ i ∈ seg.map PNode.id, i ∈ seg2.map PNode.id) ∧
        (insertHtmlAux fetch aid st last f).2 ∈ seg2.map PNode.id
  | HtmlForest.nil, st, seg, last, h, hA, hL => ⟨seg, h, fun i hi => hi, hL⟩
  | HtmlForest.cons (HtmlNode.text s) rest, st, seg, last, h, hA, hL => by
    simp only [insertHtmlAux]
    split_ifs with hs
    · exact zone_insertHtmlAux fetch rest st seg last h hA hL
    · obtain ⟨seg2, hz2, hm2, hc2⟩ := zone_awi h hA (Sum.inl s) none
      obtain ⟨seg3, hz3, hm3, hc3⟩ := zone_insertHtmlAux fetch rest
        (awi fetch st aid (Sum.inl s) none).1 seg2
        (awi fetch st aid (Sum.inl s) none).2 hz2 (hm2 aid hA) hc2
      exact ⟨seg3, hz3, fun i hi => hm3 i (hm2 i hi), hc3⟩
  | HtmlForest.cons (HtmlNode.elem nm src cs) rest, st, seg, last, h, hA, hL => by
    simp only [insertHtmlAux]
    split_ifs with h1 h2 h3 hul h4
    · obtain ⟨seg2, hz2, hm2, hc2⟩ := zone_awi h hA
        (Sum.inr (HtmlNode.elem nm src cs)) (some "Heading 3".data)
      obtain ⟨seg3, hz3, hm3, hc3⟩ := zone_insertHtmlAux fetch rest
        (awi fetch st aid (Sum.inr (HtmlNode.elem nm src cs)) (some "Heading 3".data)).1
        seg2
        (awi fetch st aid (Sum.inr (HtmlNode.elem nm src cs)) (some "Heading 3".data)).2
        hz2 (hm2 aid hA) hc2
      exact ⟨seg3, hz3, fun i hi => hm3 i (hm2 i hi), hc3⟩
    · obtain ⟨seg2, hz2, hm2, hc2⟩ := zone_awi h hA
        (Sum.inr (HtmlNode.elem nm src cs)) (some "Normal".data)
      obtain ⟨seg3, hz3, hm3, hc3⟩ := zone_insertHtmlAux fetch rest
        (awi fetch st aid (Sum.inr (HtmlNode.elem nm src cs)) (some "Normal".data)).1
        seg2
        (awi fetch st aid (Sum.inr (HtmlNode.elem nm src cs)) (some "Normal".data)).2
        hz2 (hm2 aid hA) hc2
      exact ⟨seg3, hz3, fun i hi => hm3 i (hm2 i hi), hc3⟩
    · obtain ⟨seg2, hz2, hm2, hc2⟩ := zone_ulLiLoop "List Bullet".data cs st seg last h hL
      obtain ⟨seg3, hz3, hm3, hc3⟩ := zone_insertHtmlAux fetch rest
        (ulLiLoop "List Bullet".data (st, last) cs).1 seg2
        (ulLiLoop "List Bullet".data (st, last) cs).2 hz2 (hm2 aid hA) hc2
      exact ⟨seg3, hz3, fun i hi => hm3 i (hm2 i hi), hc3⟩
    · obtain ⟨seg2, hz2, hm2, hc2⟩ := zone_ulLiLoop "List Number".data cs st seg last h hL
      obtain ⟨seg3, hz3, hm3, hc3⟩ := zone_insertHtmlAux fetch rest
        (ulLiLoop "List Number".data (st, last) cs).1 seg2
        (ulLiLoop "List Number".data (st, last) cs).2 hz2 (hm2 aid hA) hc2
      exact ⟨seg3, hz3, fun i hi => hm3 i (hm2 i hi), hc3⟩
    · obtain ⟨seg2, hz2, hm2, hc2⟩ := zone_ipa h hL [] none
      obtain ⟨seg3, hz3, hm3, hc3⟩ := zone_insertHtmlAux fetch rest
        (insertParagraphAfter st last [] none).1 seg2
        (insertParagraphAfter st last [] none).2 hz2 (hm2 aid hA) hc2
      exact ⟨seg3, hz3, fun i hi => hm3 i (hm2 i hi), hc3⟩
    · obtain ⟨seg2, hz2, hm2, hc2⟩ := zone_awi h hA
        (Sum.inr (HtmlNode.elem nm src cs)) (some "Normal".data)
      obtain ⟨seg3, hz3, hm3, hc3⟩ := zone_insertHtmlAux fetch rest
        (awi fetch st aid (Sum.inr (HtmlNode.elem nm src cs)) (some "Normal".data)).1
        seg2
        (awi fetch st aid (Sum.inr (HtmlNode.elem nm src cs)) (some "Normal".data)).2
        hz2 (hm2 aid hA) hc2
      exact ⟨seg3, hz3, fun i hi => hm3 i (hm2 i hi), hc3⟩

theorem zone_sdBlocksLoop {fetch : Str → Option Str} {X Y : List PNode} :
    ∀ (blocks : List ContentBlock) (st : DState) (seg : List PNode) (cur : Nat),
      ZoneInv st X Y seg → cur ∈ seg.map PNode.id →
      ∃ seg2,
        ZoneInv (sdBlocksLoop fetch st cur blocks).1 X Y seg2 ∧
        (∀ i ∈ seg.map PNode.id, i ∈ seg2.map PNode.id) ∧
        (sdBlocksLoop fetch st cur blocks).2 ∈ seg2.map PNode.id := by
  intro blocks
  induction blocks with
  | nil => intro st seg cur h hc; exact ⟨seg, h, fun i hi => hi, hc⟩
  | cons b rest ih =>
    intro st seg cur h hc
    simp only [sdBlocksLoop]
    have step1 : ∃ seg1,
        ZoneInv (if b.subtitle.isEmpty then (st, cur)
          else insertParagraphAfter st cur b.subtitle (some "Heading 3".data)).1
          X Y seg1 ∧
        (∀ i ∈ seg.map PNode.id, i ∈ seg1.map PNode.id) ∧
        (if b.subtitle.isEmpty then (st, cur)
          else insertParagraphAfter st cur b.subtitle (some "Heading 3".data)).2
          ∈ seg1.map PNode.id := by
      split_ifs with hb
      · exact ⟨seg, h, fun i hi => hi, hc⟩
      · exact zone_ipa h hc b.subtitle (some "Heading 3".data)
    obtain ⟨seg1, hz1, hm1, hc1⟩ := step1
    cases hcon : b.content with
    | none =>
      obtain ⟨seg2, hz2, hm2, hc2⟩ := ih
        (if b.subtitle.isEmpty then (st, cur)
          else insertParagraphAfter st cur b.subtitle (some "Heading 3".data)).1
        seg1
        (if b.subtitle.isEmpty then (st, cur)
          else insertParagraphAfter st cur b.subtitle (some "Heading 3".data)).2
        hz1 hc1
      exact ⟨seg2, hz2, fun i hi => hm2 i (hm1 i hi), hc2⟩
    | some nodes =>
      obtain ⟨seg2, hz2, hm2, hc2⟩ := zone_insertHtmlAux fetch nodes
        (if b.subtitle.isEmpty then (st, cur)
          else insertParagraphAfter st cur b.subtitle (some "Heading 3".data)).1
        seg1
        (if b.subtitle.isEmpty then (st, cur)
          else insertParagraphAfter st cur b.subtitle (some "Heading 3".data)).2
        hz1 hc1 hc1
      obtain ⟨seg3, hz3, hm3, hc3⟩ := zone_ipa hz2 hc2 [] none
      obtain ⟨seg4, hz4, hm4, hc4⟩ := ih _ seg3 _ hz3 hc3
      exact ⟨seg4, hz4, fun i hi => hm4 i (hm3 i (hm2 i (hm1 i hi))), hc4⟩

theorem numBlks_texts : ∀ (items : List Str) (k : Nat),
    (numBlks k items).map blockText
      = items.mapIdx (fun i it => numText (k + i) ++ it)
  | [], _ => by simp [numBlks]
  | it :: rest, k => by
    have ih := numBlks_texts rest (k + 1)
    have harg : (fun (i : Nat) (s : Str) => numText (k + 1 + i) ++ s)
        = fun (i : Nat) (s : Str) => numText (k + (i + 1)) ++ s := by
      funext i s
      have he : k + 1 + i = k + (i + 1) := by omega
      rw [he]
    rw [harg] at ih
    simp only [numBlks, List.map_cons, List.mapIdx_cons, ih]
    simp [blockText, runsText, numRun, itemRun]

/-- C1: for every well-placed call to the composer (`_insert_full_content_block`
as invoked by `generate_service_description`), the composed body decomposes as
the untouched prefix, the linear core — whose `Key Service Features` region is
exactly `numBlks 1 (features.take 10)` and whose `Key Service Benefits` region
is exactly `numBlks 1 (benefits.take 10)`, i.e. the first ten items of each
list, one numbered paragraph per item, in input order — then a
service-definition region (empty when `service_definition` is empty), then the
untouched suffix.  The numbered regions' paragraph texts enumerate the capped
items in order. -/
theorem features_benefits_cap {fetch : Str → Option Str} {st : DState}
    {X Y seg : List PNode} {cur : Nat} (h : LinInv st X Y seg cur)
    (title desc : Str) (features benefits : List Str) (sdef : List ContentBlock) :
    ∃ sd : List Block,
      (insertFullContentBlock fetch st (some cur) title desc features benefits
            sdef).1.body.map PNode.blk
        = X.map PNode.blk ++ seg.map PNode.blk
            ++ coreBlks title desc features benefits ++ sd ++ Y.map PNode.blk ∧
      (sdef = [] → sd = []) ∧
      (numBlks 1 (features.take 10)).map blockText
        = (features.take 10).mapIdx (fun i it => numText (1 + i) ++ it) ∧
      (numBlks 1 (benefits.take 10)).map blockText
        = (benefits.take 10).mapIdx (fun i it => numText (1 + i) ++ it) := by
  obtain ⟨ns, hL, hblk⟩ := lin_icbCore h title desc features benefits
  cases sdef with
  | nil =>
    refine ⟨[], ?_, fun _ => rfl, numBlks_texts _ 1, numBlks_texts _ 1⟩
    obtain ⟨hbody, _, _⟩ := hL
    have hfin : (insertFullContentBlock fetch st (some cur) title desc features
        benefits []).1.body = X ++ (seg ++ ns) ++ Y := hbody
    rw [hfin]
    simp [hblk]
  | cons b rest =>
    obtain ⟨e6, e6n, hL6⟩ := lin_addParaStep
      (some (icbCore st (some cur) title desc features benefits).2) rfl hL
      "Service Definition".data (some "Heading 2".data)
    obtain ⟨hbody6, hwf6, _⟩ := hL6
    have hz : ZoneInv
        (addParaStep (icbCore st (some cur) title desc features benefits).1
          (some (icbCore st (some cur) title desc features benefits).2)
          "Service Definition".data (some "Heading 2".data)).1
        (X ++ (seg ++ ns)) Y
        [⟨(icbCore st (some cur) title desc features benefits).1.nextId,
          paraOf (some "Heading 2".data) "Service Definition".data⟩] := by
      refine ⟨?_, hwf6⟩
      rw [hbody6]
      simp
    have hcur : (addParaStep (icbCore st (some cur) title desc features benefits).1
        (some (icbCore st (some cur) title desc features benefits).2)
        "Service Definition".data (some "Heading 2".data)).2
        ∈ ([⟨(icbCore st (some cur) title desc features benefits).1.nextId,
          paraOf (some "Heading 2".data) "Service Definition".data⟩] : List PNode).map
          PNode.id := by
      rw [e6]
      simp
    obtain ⟨seg2, hz2, hm2, hc2⟩ := zone_sdBlocksLoop (b :: rest)
      (addParaStep (icbCore st (some cur) title desc features benefits).1
        (some (icbCore st (some cur) title desc features benefits).2)
        "Service Definition".data (some "Heading 2".data)).1
      [⟨(icbCore st (some cur) title desc features benefits).1.nextId,
        paraOf (some "Heading 2".data) "Service Definition".data⟩]
      (addParaStep (icbCore st (some cur) title desc features benefits).1
        (some (icbCore st (some cur) title desc features benefits).2)
        "Service Definition".data (some "Heading 2".data)).2
      hz hcur
    refine ⟨seg2.map PNode.blk, ?_, fun hco => absurd hco (List.cons_ne_nil b rest),
      numBlks_texts _ 1, numBlks_texts _ 1⟩
    obtain ⟨hbody2, _⟩ := hz2
    have hfin : (insertFullContentBlock fetch st (some cur) title desc features benefits
        (b :: rest)).1.body = (X ++ (seg ++ ns)) ++ seg2 ++ Y := hbody2
    rw [hfin]
    simp [hblk]

/-- Witness for the composer decomposition: a concrete one-paragraph document,
a two-item features list, a one-item benefits list and no service
definition. -/
theorem features_benefits_cap_witness :
    ∃ sd : List Block,
      (insertFullContentBlock (fun _ => none) ⟨[⟨0, Block.para none []⟩], 1⟩ (some 0)
            "T".data "D".data ["f1".data, "f2".data] ["b1".data] []).1.body.map PNode.blk
        = ([] : List PNode).map PNode.blk
            ++ [(⟨0, Block.para none []⟩ : PNode)].map PNode.blk
            ++ coreBlks "T".data "D".data ["f1".data, "f2".data] ["b1".data]
            ++ sd ++ ([] : List PNode).map PNode.blk ∧
      (([] : List ContentBlock) = [] → sd = []) ∧
      (numBlks 1 (["f1".data, "f2".data].take 10)).map blockText
        = (["f1".data, "f2".data].take 10).mapIdx (fun i it => numText (1 + i) ++ it) ∧
      (numBlks 1 (["b1".data].take 10)).map blockText
        = (["b1".data].take 10).mapIdx (fun i it => numText (1 + i) ++ it) :=
  @features_benefits_cap (fun _ => none) ⟨[⟨0, Block.para none []⟩], 1⟩ [] []
    [⟨0, Block.para none []⟩] 0 ⟨rfl, by decide, [], ⟨0, Block.para none []⟩, rfl, rfl⟩
    "T".data "D".data ["f1".data, "f2".data] ["b1".data] []

theorem runsText_append (a b : List Run) : runsText (a ++ b) = runsText a ++ runsText b := by
  simp [runsText]

theorem runsText_inlineRuns : ∀ cs : HtmlForest, hasDirectImg cs = false →
    brChildrenEmpty cs = true → runsText (inlineRuns cs) = getTextF cs
  | HtmlForest.nil, _, _ => rfl
  | HtmlForest.cons (HtmlNode.text s) t, himg, hbr => by
    have ih := runsText_inlineRuns t himg hbr
    show runsText (childRuns (HtmlNode.text s) ++ inlineRuns t)
      = getText (HtmlNode.text s) ++ getTextF t
    rw [runsText_append, ih]
    simp [childRuns, runsText, mkRun, getText]
  | HtmlForest.cons (HtmlNode.elem nm src cs') t, himg, hbr => by
    have h0 : (nm == "img".data || hasDirectImg t) = false := himg
    obtain ⟨hbeq, himgT⟩ := Bool.or_eq_false_iff.mp h0
    have hne : ¬(nm = "img".data) := by
      intro hh
      rw [hh] at hbeq
      simp at hbeq
    have h0b : ((!(nm == "br".data) || (getTextF cs').isEmpty)
        && brChildrenEmpty t) = true := hbr
    simp only [Bool.and_eq_true] at h0b
    obtain ⟨hbrH, hbrT⟩ := h0b
    have ih := runsText_inlineRuns t himgT hbrT
    show runsText (childRuns (HtmlNode.elem nm src cs') ++ inlineRuns t)
      = getText (HtmlNode.elem nm src cs') ++ getTextF t
    rw [runsText_append, ih]
    by_cases h1 : nm = "strong".data ∨ nm = "b".data
    · simp [childRuns, h1, getText, runsText, boldRun]
    · by_cases h2 : nm = "em".data ∨ nm = "i".data
      · simp [childRuns, h1, h2, getText, runsText, italicRun]
      · by_cases h3 : nm = "br".data
        · have hempty : getTextF cs' = [] := by
            rw [h3] at hbrH
            simp at hbrH
            exact hbrH
          simp [childRuns, h1, h2, h3, getText, runsText, breakRun, hempty]
        · simp [childRuns, h1, h2, h3, hne, getText, runsText, mkRun]

theorem awiChildren_noimg {fetch : Str → Option Str} :
    ∀ (cs : HtmlForest) (st : DState) (c : Nat) (X Y : List PNode) (sty : Option Str)
      (rs : List Run), hasDirectImg cs = false →
      st.body = X ++ ⟨c, Block.para sty rs⟩ :: Y →
      c ∉ X.map PNode.id → c ∉ Y.map PNode.id →
      (awiChildren fetch (st, c) cs).1.body
        = X ++ ⟨c, Block.para sty (rs ++ inlineRuns cs)⟩ :: Y ∧
      (awiChildren fetch (st, c) cs).2 = c
  | HtmlForest.nil, st, c, X, Y, sty, rs, _, hb, _, _ => by
    constructor
    · show st.body = X ++ ⟨c, Block.para sty (rs ++ inlineRuns HtmlForest.nil)⟩ :: Y
      rw [hb]
      simp [inlineRuns]
    · rfl
  | HtmlForest.cons ch t, st, c, X, Y, sty, rs, himg, hb, hX, hY => by
    have hstep : ∀ r : Run,
        (addRun st c r).body = X ++ ⟨c, Block.para sty (rs ++ [r])⟩ :: Y := by
      intro r
      show addRunAtId c r st.body = _
      rw [hb, addRunAtId_at c r X sty rs Y hX hY]
    match ch with
    | HtmlNode.text s =>
      have himg' : hasDirectImg t = false := himg
      obtain ⟨h1', h2'⟩ := awiChildren_noimg t (addRun st c (mkRun s)) c X Y sty
        (rs ++ [mkRun s]) himg' (hstep (mkRun s)) hX hY
      constructor
      · calc (awiChildren fetch (st, c) (HtmlForest.cons (HtmlNode.text s) t)).1.body
            = X ++ ⟨c, Block.para sty ((rs ++ [mkRun s]) ++ inlineRuns t)⟩ :: Y := h1'
          _ = X ++ ⟨c, Block.para sty
                (rs ++ inlineRuns (HtmlForest.cons (HtmlNode.text s) t))⟩ :: Y := by
              simp [inlineRuns, childRuns]
      · exact h2'
    | HtmlNode.elem nm src cs' =>
      have h0 : (nm == "img".data || hasDirectImg t) = false := himg
      obtain ⟨hbeq, himgT⟩ := Bool.or_eq_false_iff.mp h0
      have hne : ¬(nm = "img".data) := by
        intro hh
        rw [hh] at hbeq
        simp at hbeq
      have main : ∀ r : Run,
          awiChild fetch (st, c) (HtmlNode.elem nm src cs') = (addRun st c r, c) →
          childRuns (HtmlNode.elem nm src cs') = [r] →
          (awiChildren fetch (st, c)
              (HtmlForest.cons (HtmlNode.elem nm src cs') t)).1.body
            = X ++ ⟨c, Block.para sty
                (rs ++ inlineRuns (HtmlForest.cons (HtmlNode.elem nm src cs') t))⟩ :: Y ∧
          (awiChildren fetch (st, c)
              (HtmlForest.cons (HtmlNode.elem nm src cs') t)).2 = c := by
        intro r heqc hcr
        obtain ⟨h1', h2'⟩ := awiChildren_noimg t (addRun st c r) c X Y sty
          (rs ++ [r]) himgT (hstep r) hX hY
        have hred : awiChildren fetch (st, c)
            (HtmlForest.cons (HtmlNode.elem nm src cs') t)
            = awiChildren fetch (addRun st c r, c) t := by
          show awiChildren fetch (awiChild fetch (st, c) (HtmlNode.elem nm src cs')) t
            = awiChildren fetch (addRun st c r, c) t
          rw [heqc]
        rw [hred]
        refine ⟨?_, h2'⟩
        rw [h1']
        simp [inlineRuns, hcr]
      by_cases h1 : nm = "strong".data ∨ nm = "b".data
      · exact main (boldRun (getTextF cs')) (by simp [awiChild, h1])
          (by simp [childRuns, h1])
      · by_cases h2 : nm = "em".data ∨ nm = "i".data
        · exact main (italicRun (getTextF cs')) (by simp [awiChild, h1, h2])
            (by simp [childRuns, h1, h2])
        · by_cases h3 : nm = "br".data
          · exact main breakRun (by simp [awiChild, h1, h2, h3])
              (by simp [childRuns, h1, h2, h3])
          · exact main (mkRun (getTextF cs')) (by simp [awiChild, h1, h2, h3, hne])
              (by simp [childRuns, h1, h2, h3, hne])

theorem awi_elem_noimg {fetch : Str → Option Str} {st : DState} {X Y seg : List PNode}
    {cur : Nat} (h : LinInv st X Y seg cur) (nm : Str) (src : Option Str)
    (cs : HtmlForest) (sty : Option Str) (himg : hasDirectImg cs = false) :
    (awi fetch st cur (Sum.inr (HtmlNode.elem nm src cs)) sty).1.body
      = (X ++ seg) ++ ⟨st.nextId, Block.para sty (inlineRuns cs)⟩ :: Y ∧
    (awi fetch st cur (Sum.inr (HtmlNode.elem nm src cs)) sty).2 = st.nextId := by
  obtain ⟨hbody0, hwf0, _⟩ := h
  obtain ⟨hret, hnx, hL1⟩ := lin_ipa ⟨hbody0, hwf0, by assumption⟩ [] sty
  obtain ⟨hbody1, hwf1, _⟩ := hL1
  have hb : (insertParagraphAfter st cur [] sty).1.body
      = (X ++ seg) ++ ⟨st.nextId, Block.para sty []⟩ :: Y := by
    rw [hbody1]
    simp [paraOf]
  have hXs : st.nextId ∉ (X ++ seg).map PNode.id := by
    intro hmem
    obtain ⟨q, hq, hqid⟩ := List.mem_map.mp hmem
    have hqb : q ∈ st.body := by
      rw [hbody0]
      rcases List.mem_append.mp hq with h' | h'
      · simp [h']
      · simp [h']
    have := hwf0.2 q hqb
    omega
  have hYs : st.nextId ∉ Y.map PNode.id := by
    intro hmem
    obtain ⟨q, hq, hqid⟩ := List.mem_map.mp hmem
    have hqb : q ∈ st.body := by
      rw [hbody0]
      simp [hq]
    have := hwf0.2 q hqb
    omega
  obtain ⟨hfin, hcur2⟩ := awiChildren_noimg cs (insertParagraphAfter st cur [] sty).1
    st.nextId (X ++ seg) Y sty [] himg hb hXs hYs
  constructor
  · calc (awi fetch st cur (Sum.inr (HtmlNode.elem nm src cs)) sty).1.body
        = (X ++ seg) ++ ⟨st.nextId, Block.para sty ([] ++ inlineRuns cs)⟩ :: Y := hfin
      _ = (X ++ seg) ++ ⟨st.nextId, Block.para sty (inlineRuns cs)⟩ :: Y := by simp
  · exact hcur2

/-- C5 (corrected): rendering never raises (the embedding is total), and an
unsupported top-level tag degrades to a single `Normal`-styled paragraph
holding exactly its inline runs — whose text is the tag's full `get_text()`
content — provided the tag has no direct `img` child and its direct `br`
children are text-free.  With a direct `img` child the content is split
across paragraphs and no single paragraph need contain the tag's text (see
the counterexample). -/
theorem unsupported_tag_degrades {fetch : Str → Option Str} {st : DState}
    {X Y seg : List PNode} {cur : Nat} (h : LinInv st X Y seg cur)
    (nm : Str) (src : Option Str) (cs : HtmlForest)
    (hname : ¬(lowerStr nm = "h3".data ∨ lowerStr nm = "p".data
      ∨ lowerStr nm = "ul".data ∨ lowerStr nm = "ol".data ∨ lowerStr nm = "br".data))
    (himg : hasDirectImg cs = false) (hbr : brChildrenEmpty cs = true) :
    ∃ n ∈ (insertHtml fetch st cur
        (HtmlForest.cons (HtmlNode.elem nm src cs) HtmlForest.nil)).1.body,
      n.blk = Block.para (some "Normal".data) (inlineRuns cs) ∧
      blockText n.blk = getText (HtmlNode.elem nm src cs) := by
  push_neg at hname
  obtain ⟨hn1, hn2, hn3, hn4, hn5⟩ := hname
  have hred : insertHtml fetch st cur
      (HtmlForest.cons (HtmlNode.elem nm src cs) HtmlForest.nil)
      = awi fetch st cur (Sum.inr (HtmlNode.elem nm src cs)) (some "Normal".data) := by
    show insertHtmlAux fetch cur st cur
        (HtmlForest.cons (HtmlNode.elem nm src cs) HtmlForest.nil)
      = awi fetch st cur (Sum.inr (HtmlNode.elem nm src cs)) (some "Normal".data)
    simp [insertHtmlAux, hn1, hn2, hn3, hn4, hn5]
  rw [hred]
  obtain ⟨hfin, _⟩ := awi_elem_noimg h nm src cs (some "Normal".data) himg
  rw [hfin]
  refine ⟨⟨st.nextId, Block.para (some "Normal".data) (inlineRuns cs)⟩, ?_, rfl, ?_⟩
  · simp
  · show runsText (inlineRuns cs) = getTextF cs
    exact runsText_inlineRuns cs himg hbr

/-- Counterexample to the literal C5 claim: `<xyz>a<img src="http://x"/>b</xyz>`
has text content `ab`, but after rendering (with the image fetch failing) no
paragraph of the document — of any style — contains `ab`: the `img` child
rebinds the target paragraph, splitting the text into `a` and
`[image: http://x]b`. -/
theorem unsupported_tag_counterexample :
    getText (HtmlNode.elem "xyz".data none
      (HtmlForest.cons (HtmlNode.text "a".data)
        (HtmlForest.cons (HtmlNode.elem "img".data (some "http://x".data) HtmlForest.nil)
          (HtmlForest.cons (HtmlNode.text "b".data) HtmlForest.nil)))) = "ab".data ∧
    bodyHasParaSub
      (insertHtml (fun _ => none) ⟨[⟨0, Block.para none []⟩], 1⟩ 0
        (HtmlForest.cons (HtmlNode.elem "xyz".data none
          (HtmlForest.cons (HtmlNode.text "a".data)
            (HtmlForest.cons
              (HtmlNode.elem "img".data (some "http://x".data) HtmlForest.nil)
              (HtmlForest.cons (HtmlNode.text "b".data) HtmlForest.nil))))
          HtmlForest.nil)).1.body
      "ab".data = false := by
  decide

/-- Witness: `<xyz>hello</xyz>` rendered into a one-paragraph document. -/
theorem unsupported_tag_degrades_witness :
    ∃ n ∈ (insertHtml (fun _ => none) ⟨[⟨0, Block.para none []⟩], 1⟩ 0
        (HtmlForest.cons (HtmlNode.elem "xyz".data none
          (HtmlForest.cons (HtmlNode.text "hello".data) HtmlForest.nil))
          HtmlForest.nil)).1.body,
      n.blk = Block.para (some "Normal".data)
        (inlineRuns (HtmlForest.cons (HtmlNode.text "hello".data) HtmlForest.nil)) ∧
      blockText n.blk = getText (HtmlNode.elem "xyz".data none
        (HtmlForest.cons (HtmlNode.text "hello".data) HtmlForest.nil)) :=
  @unsupported_tag_degrades (fun _ => none) ⟨[⟨0, Block.para none []⟩], 1⟩ [] []
    [⟨0, Block.para none []⟩] 0 ⟨rfl, by decide, [], ⟨0, Block.para none []⟩, rfl, rfl⟩
    "xyz".data none (HtmlForest.cons (HtmlNode.text "hello".data) HtmlForest.nil)
    (by decide) (by decide) (by decide)

theorem runMem_insertAfterId {t : Str} (pid : Nat) (n : PNode) {body : List PNode}
    (h : runMem t body) : runMem t (insertAfterId pid n body) := by
  obtain ⟨q, hq, sty, rs, hblk, r, hr, ht⟩ := h
  exact ⟨q, mem_insertAfterId_of_mem hq, sty, rs, hblk, r, hr, ht⟩

theorem runMem_addRunAtId {t : Str} (pid : Nat) (r0 : Run) {body : List PNode}
    (h : runMem t body) : runMem t (addRunAtId pid r0 body) := by
  obtain ⟨q, hq, sty, rs, hblk, r, hr, ht⟩ := h
  by_cases hid : q.id = pid
  · refine ⟨⟨q.id, Block.para sty (rs ++ [r0])⟩, ?_, sty, rs ++ [r0], rfl, r,
      List.mem_append_left _ hr, ht⟩
    unfold addRunAtId
    refine List.mem_map.mpr ⟨q, hq, ?_⟩
    simp [hid, hblk]
  · refine ⟨q, ?_, sty, rs, hblk, r, hr, ht⟩
    unfold addRunAtId
    refine List.mem_map.mpr ⟨q, hq, ?_⟩
    simp [hid]

theorem runMem_append_left {t : Str} {body : List PNode} (h : runMem t body)
    (tail : List PNode) : runMem t (body ++ tail) := by
  obtain ⟨q, hq, sty, rs, hblk, r, hr, ht⟩ := h
  exact ⟨q, List.mem_append_left _ hq, sty, rs, hblk, r, hr, ht⟩

theorem runMem_awiChild {fetch : Str → Option Str} {t : Str} (acc : DState × Nat)
    (ch : HtmlNode) (h : runMem t acc.1.body) :
    runMem t (awiChild fetch acc ch).1.body := by
  cases ch with
  | text s => exact runMem_addRunAtId _ _ h
  | elem nm src cs =>
    simp only [awiChild]
    split_ifs with h1 h2 h3 h4
    · exact runMem_addRunAtId _ _ h
    · exact runMem_addRunAtId _ _ h
    · exact runMem_addRunAtId _ _ h
    · cases src with
      | none => exact h
      | some u =>
        simp only [awiImg]
        split_ifs with he
        · exact h
        · cases hfu : fetch u with
          | some pic => exact runMem_addRunAtId _ _ (runMem_insertAfterId _ _ h)
          | none => exact runMem_addRunAtId _ _ (runMem_insertAfterId _ _ h)
    · exact runMem_addRunAtId _ _ h

theorem runMem_awiChildren {fetch : Str → Option Str} {t : Str} :
    ∀ (f : HtmlForest) (acc : DState × Nat), runMem t acc.1.body →
      runMem t (awiChildren fetch acc f).1.body
  | HtmlForest.nil, _, h => h
  | HtmlForest.cons c f', acc, h =>
    runMem_awiChildren f' (awiChild fetch acc c) (runMem_awiChild acc c h)

theorem runMem_awi {fetch : Str → Option Str} {t : Str} (st : DState) (aid : Nat)
    (inp : Sum Str HtmlNode) (sty : Option Str) (h : runMem t st.body) :
    runMem t (awi fetch st aid inp sty).1.body := by
  have h1 : runMem t (insertParagraphAfter st aid [] sty).1.body :=
    runMem_insertAfterId aid _ h
  match inp with
  | Sum.inl s => exact runMem_addRunAtId _ _ h1
  | Sum.inr (HtmlNode.text s) => exact runMem_addRunAtId _ _ h1
  | Sum.inr (HtmlNode.elem nm src cs) => exact runMem_awiChildren cs _ h1

theorem runMem_ulLiLoop {t : Str} (sty : Str) :
    ∀ (f : HtmlForest) (acc : DState × Nat), runMem t acc.1.body →
      runMem t (ulLiLoop sty acc f).1.body
  | HtmlForest.nil, _, h => h
  | HtmlForest.cons ch f', acc, h => by
    match ch with
    | HtmlNode.text s => exact runMem_ulLiLoop sty f' acc h
    | HtmlNode.elem nm src cs =>
      simp only [ulLiLoop]
      split_ifs with hli
      · exact runMem_ulLiLoop sty f' _ (runMem_insertAfterId _ _ h)
      · exact runMem_ulLiLoop sty f' acc h

theorem runMem_insertHtmlAux {fetch : Str → Option Str} {t : Str} {aid : Nat} :
    ∀ (f : HtmlForest) (st : DState) (last : Nat), runMem t st.body →
      runMem t (insertHtmlAux fetch aid st last f).1.body
  | HtmlForest.nil, _, _, h => h
  | HtmlForest.cons (HtmlNode.text s) rest, st, last, h => by
    simp only [insertHtmlAux]
    split_ifs with hs
    · exact runMem_insertHtmlAux rest st last h
    · exact runMem_insertHtmlAux rest _ _ (runMem_awi st aid (Sum.inl s) none h)
  | HtmlForest.cons (HtmlNode.elem nm src cs) rest, st, last, h => by
    simp only [insertHtmlAux]
    split_ifs with h1 h2 h3 hul h4
    · exact runMem_insertHtmlAux rest _ _
        (runMem_awi st aid (Sum.inr (HtmlNode.elem nm src cs)) (some "Heading 3".data) h)
    · exact runMem_insertHtmlAux rest _ _
        (runMem_awi st aid (Sum.inr (HtmlNode.elem nm src cs)) (some "Normal".data) h)
    · exact runMem_insertHtmlAux rest _ _
        (runMem_ulLiLoop "List Bullet".data cs (st, last) h)
    · exact runMem_insertHtmlAux rest _ _
        (runMem_ulLiLoop "List Number".data cs (st, last) h)
    · exact runMem_insertHtmlAux rest _ _ (runMem_insertAfterId last _ h)
    · exact runMem_insertHtmlAux rest _ _
        (runMem_awi st aid (Sum.inr (HtmlNode.elem nm src cs)) (some "Normal".data) h)

theorem addRunAtId_mem_target {pid : Nat} {r0 : Run} {body : List PNode} {n : PNode}
    (hn : n ∈ body) (hid : n.id = pid) {sty : Option Str} {rs : List Run}
    (hblk : n.blk = Block.para sty rs) :
    (⟨n.id, Block.para sty (rs ++ [r0])⟩ : PNode) ∈ addRunAtId pid r0 body := by
  unfold addRunAtId
  refine List.mem_map.mpr ⟨n, hn, ?_⟩
  simp [hid, hblk]

theorem awiImg_fail {fetch : Str → Option Str} (acc : DState × Nat) (u : Str)
    (hu : u.isEmpty = false) (hf : fetch u = none) :
    runMem ("[image: ".data ++ u ++ "]".data) (awiImg fetch acc (some u)).1.body := by
  have hred : awiImg fetch acc (some u)
      = (addRun (insertParagraphAfter acc.1 acc.2 [] none).1
          (insertParagraphAfter acc.1 acc.2 [] none).2
          (mkRun ("[image: ".data ++ u ++ "]".data)),
        (insertParagraphAfter acc.1 acc.2 [] none).2) := by
    simp [awiImg, hu, hf]
  rw [hred]
  refine ⟨⟨acc.1.nextId,
    Block.para none ([] ++ [mkRun ("[image: ".data ++ u ++ "]".data)])⟩, ?_, none,
    [] ++ [mkRun ("[image: ".data ++ u ++ "]".data)], rfl,
    mkRun ("[image: ".data ++ u ++ "]".data), by simp, rfl⟩
  exact addRunAtId_mem_target
    (mem_insertAfterId_self acc.2 ⟨acc.1.nextId, paraOf none []⟩ acc.1.body) rfl rfl

theorem awiChildren_shift {fetch : Str → Option Str} :
    ∀ (pre rest : HtmlForest) (acc : DState × Nat),
      ∃ acc2, awiChildren fetch acc (appendF pre rest) = awiChildren fetch acc2 rest
  | HtmlForest.nil, _, acc => ⟨acc, rfl⟩
  | HtmlForest.cons c pre', rest, acc =>
    awiChildren_shift pre' rest (awiChild fetch acc c)

theorem insertHtmlAux_shift {fetch : Str → Option Str} {aid : Nat} :
    ∀ (pre rest : HtmlForest) (st : DState) (last : Nat),
      ∃ st2 last2, insertHtmlAux fetch aid st last (appendF pre rest)
        = insertHtmlAux fetch aid st2 last2 rest
  | HtmlForest.nil, _, st, last => ⟨st, last, rfl⟩
  | HtmlForest.cons (HtmlNode.text s) pre', rest, st, last => by
    show ∃ st2 last2, insertHtmlAux fetch aid st last
        (HtmlForest.cons (HtmlNode.text s) (appendF pre' rest))
      = insertHtmlAux fetch aid st2 last2 rest
    simp only [insertHtmlAux]
    split_ifs with hs
    · exact insertHtmlAux_shift pre' rest st last
    · exact insertHtmlAux_shift pre' rest _ _
  | HtmlForest.cons (HtmlNode.elem nm src cs) pre', rest, st, last => by
    show ∃ st2 last2, insertHtmlAux fetch aid st last
        (HtmlForest.cons (HtmlNode.elem nm src cs) (appendF pre' rest))
      = insertHtmlAux fetch aid st2 last2 rest
    simp only [insertHtmlAux]
    split_ifs with h1 h2 h3 hul h4
    · exact insertHtmlAux_shift pre' rest _ _
    · exact insertHtmlAux_shift pre' rest _ _
    · exact insertHtmlAux_shift pre' rest _ _
    · exact insertHtmlAux_shift pre' rest _ _
    · exact insertHtmlAux_shift pre' rest _ _
    · exact insertHtmlAux_shift pre' rest _ _

/-- C6 (corrected): a failing image fetch/decode never aborts composition
(both embedded paths return normally), but only the HTML renderer substitutes
the bracketed placeholder: a failing `img` child of any paragraph-building
element anywhere in a rendered forest leaves a `[image: <src>]` run in the
composed body, while `_add_image` inside `_insert_service_definition`
swallows the failure and returns the document unchanged — no placeholder
(see the counterexample). -/
theorem image_failure_policy {fetch : Str → Option Str} {u : Str}
    (hu : u.isEmpty = false) (hf : fetch u = none) :
    (∀ (st : DState) (aid : Nat) (F1 F2 C1 C2 K : HtmlForest) (nm : Str)
        (src : Option Str),
      ¬(lowerStr nm = "ul".data ∨ lowerStr nm = "ol".data
        ∨ lowerStr nm = "br".data) →
      runMem ("[image: ".data ++ u ++ "]".data)
        (insertHtml fetch st aid (appendF F1 (HtmlForest.cons
          (HtmlNode.elem nm src (appendF C1 (HtmlForest.cons
            (HtmlNode.elem "img".data (some u) K) C2))) F2))).1.body) ∧
    (∀ (st : DState) (cur : Nat), addImage fetch st cur u = (st, cur)) := by
  constructor
  · intro st aid F1 F2 C1 C2 K nm src hname
    push_neg at hname
    obtain ⟨hn3, hn4, hn5⟩ := hname
    show runMem ("[image: ".data ++ u ++ "]".data)
      (insertHtmlAux fetch aid st aid (appendF F1 (HtmlForest.cons
        (HtmlNode.elem nm src (appendF C1 (HtmlForest.cons
          (HtmlNode.elem "img".data (some u) K) C2))) F2))).1.body
    obtain ⟨st2, last2, heq1⟩ := insertHtmlAux_shift F1 (HtmlForest.cons
      (HtmlNode.elem nm src (appendF C1 (HtmlForest.cons
        (HtmlNode.elem "img".data (some u) K) C2))) F2) st aid
    rw [heq1]
    have hkey : ∀ sty : Option Str, runMem ("[image: ".data ++ u ++ "]".data)
        (awi fetch st2 aid (Sum.inr (HtmlNode.elem nm src (appendF C1
          (HtmlForest.cons (HtmlNode.elem "img".data (some u) K) C2)))) sty).1.body := by
      intro sty
      show runMem ("[image: ".data ++ u ++ "]".data)
        (awiChildren fetch ((insertParagraphAfter st2 aid [] sty).1,
          (insertParagraphAfter st2 aid [] sty).2)
          (appendF C1 (HtmlForest.cons (HtmlNode.elem "img".data (some u) K)
            C2))).1.body
      obtain ⟨acc2, heq2⟩ := awiChildren_shift C1
        (HtmlForest.cons (HtmlNode.elem "img".data (some u) K) C2)
        ((insertParagraphAfter st2 aid [] sty).1, (insertParagraphAfter st2 aid [] sty).2)
      rw [heq2]
      show runMem ("[image: ".data ++ u ++ "]".data)
        (awiChildren fetch
          (awiChild fetch acc2 (HtmlNode.elem "img".data (some u) K)) C2).1.body
      have heq3 : awiChild fetch acc2 (HtmlNode.elem "img".data (some u) K)
          = awiImg fetch acc2 (some u) := by
        simp [awiChild]
      rw [heq3]
      exact runMem_awiChildren C2 _ (awiImg_fail acc2 u hu hf)
    by_cases h1 : lowerStr nm = "h3".data
    · have hred : insertHtmlAux fetch aid st2 last2 (HtmlForest.cons
          (HtmlNode.elem nm src (appendF C1 (HtmlForest.cons
            (HtmlNode.elem "img".data (some u) K) C2))) F2)
          = insertHtmlAux fetch aid
            (awi fetch st2 aid (Sum.inr (HtmlNode.elem nm src (appendF C1
              (HtmlForest.cons (HtmlNode.elem "img".data (some u) K) C2))))
              (some "Heading 3".data)).1
            (awi fetch st2 aid (Sum.inr (HtmlNode.elem nm src (appendF C1
              (HtmlForest.cons (HtmlNode.elem "img".data (some u) K) C2))))
              (some "Heading 3".data)).2 F2 := by
        simp [insertHtmlAux, h1]
      rw [hred]
      exact runMem_insertHtmlAux F2 _ _ (hkey (some "Heading 3".data))
    · by_cases h2 : lowerStr nm = "p".data
      · have hred : insertHtmlAux fetch aid st2 last2 (HtmlForest.cons
            (HtmlNode.elem nm src (appendF C1 (HtmlForest.cons
              (HtmlNode.elem "img".data (some u) K) C2))) F2)
            = insertHtmlAux fetch aid
              (awi fetch st2 aid (Sum.inr (HtmlNode.elem nm src (appendF C1
                (HtmlForest.cons (HtmlNode.elem "img".data (some u) K) C2))))
                (some "Normal".data)).1
              (awi fetch st2 aid (Sum.inr (HtmlNode.elem nm src (appendF C1
                (HtmlForest.cons (HtmlNode.elem "img".data (some u) K) C2))))
                (some "Normal".data)).2 F2 := by
          simp [insertHtmlAux, h1, h2]
        rw [hred]
        exact runMem_insertHtmlAux F2 _ _ (hkey (some "Normal".data))
      · have hred : insertHtmlAux fetch aid st2 last2 (HtmlForest.cons
            (HtmlNode.elem nm src (appendF C1 (HtmlForest.cons
              (HtmlNode.elem "img".data (some u) K) C2))) F2)
            = insertHtmlAux fetch aid
              (awi fetch st2 aid (Sum.inr (HtmlNode.elem nm src (appendF C1
                (HtmlForest.cons (HtmlNode.elem "img".data (some u) K) C2))))
                (some "Normal".data)).1
              (awi fetch st2 aid (Sum.inr (HtmlNode.elem nm src (appendF C1
                (HtmlForest.cons (HtmlNode.elem "img".data (some u) K) C2))))
                (some "Normal".data)).2 F2 := by
          simp [insertHtmlAux, h1, h2, hn3, hn4, hn5]
        rw [hred]
        exact runMem_insertHtmlAux F2 _ _ (hkey (some "Normal".data))
  · intro st cur
    simp [addImage, hf]

/-- Counterexample to the literal C6 claim: `_insert_service_definition` on a
block whose single image fails to fetch leaves no `[image: ...]` text
anywhere in the document — the failure is silently swallowed. -/
theorem image_failure_counterexample :
    bodyHasParaSub (insertServiceDefinition (fun _ => none)
        ⟨[⟨0, Block.para (some "Heading 2".data)
          [mkRun "Service Definition".data]⟩], 1⟩
        [⟨"Sub".data, none, ["http://x".data], none⟩]).body
      "[image: ".data = false := by
  decide

/-- Witness: a failing `img` inside an unsupported wrapper element leaves the
placeholder run; `_add_image` on the same failing URL is the identity. -/
theorem image_failure_policy_witness :
    runMem ("[image: ".data ++ "http://x".data ++ "]".data)
      (insertHtml (fun _ => none) ⟨[⟨0, Block.para none []⟩], 1⟩ 0
        (appendF HtmlForest.nil (HtmlForest.cons (HtmlNode.elem "xyz".data none
          (appendF HtmlForest.nil (HtmlForest.cons
            (HtmlNode.elem "img".data (some "http://x".data) HtmlForest.nil)
            HtmlForest.nil))) HtmlForest.nil))).1.body ∧
    addImage (fun _ => none) ⟨[], 0⟩ 0 "http://x".data = (⟨[], 0⟩, 0) :=
  ⟨(@image_failure_policy (fun _ => none) "http://x".data rfl rfl).1
      ⟨[⟨0, Block.para none []⟩], 1⟩ 0
      HtmlForest.nil HtmlForest.nil HtmlForest.nil HtmlForest.nil HtmlForest.nil
      "xyz".data none (by decide),
    (@image_failure_policy (fun _ => none) "http://x".data rfl rfl).2 ⟨[], 0⟩ 0⟩

theorem wf_awiChild {fetch : Str → Option Str} (ch : HtmlNode) (acc : DState × Nat)
    (h : wfState acc.1) : wfState (awiChild fetch acc ch).1 := by
  cases ch with
  | text s => exact wf_addRun _ _ h
  | elem nm src cs =>
    simp only [awiChild]
    split_ifs with h1 h2 h3 h4
    · exact wf_addRun _ _ h
    · exact wf_addRun _ _ h
    · exact wf_addRun _ _ h
    · cases src with
      | none => exact h
      | some u =>
        simp only [awiImg]
        split_ifs with he
        · exact h
        · cases hfu : fetch u with
          | some pic => exact wf_addRun _ _ (wf_insert acc.2 _ h)
          | none => exact wf_addRun _ _ (wf_insert acc.2 _ h)
    · exact wf_addRun _ _ h

theorem wf_awiChildren {fetch : Str → Option Str} :
    ∀ (f : HtmlForest) (acc : DState × Nat), wfState acc.1 →
      wfState (awiChildren fetch acc f).1
  | HtmlForest.nil, _, h => h
  | HtmlForest.cons c t, acc, h =>
    wf_awiChildren t (awiChild fetch acc c) (wf_awiChild c acc h)

theorem lin_awi_elem {fetch : Str → Option Str} {st : DState} {X Y seg : List PNode}
    {cur : Nat} (h : LinInv st X Y seg cur) (nm : Str) (src : Option Str)
    (cs : HtmlForest) (sty : Option Str) (himg : hasDirectImg cs = false) :
    LinInv (awi fetch st cur (Sum.inr (HtmlNode.elem nm src cs)) sty).1 X Y
      (seg ++ [⟨st.nextId, Block.para sty (inlineRuns cs)⟩]) st.nextId ∧
    (awi fetch st cur (Sum.inr (HtmlNode.elem nm src cs)) sty).2 = st.nextId := by
  obtain ⟨hbody, hcur⟩ := awi_elem_noimg h nm src cs sty himg
  obtain ⟨_, hwf0, _⟩ := h
  refine ⟨⟨?_, ?_, seg, ⟨st.nextId, Block.para sty (inlineRuns cs)⟩, rfl, rfl⟩, hcur⟩
  · rw [hbody]
    simp
  · show wfState (awiChildren fetch ((insertParagraphAfter st cur [] sty).1,
      (insertParagraphAfter st cur [] sty).2) cs).1
    exact wf_awiChildren cs _ (wf_insert cur (paraOf sty []) hwf0)

theorem lin_ulLiLoop (sty : Str) :
    ∀ (f : HtmlForest) (st : DState) (X Y seg : List PNode) (cur : Nat),
      LinInv st X Y seg cur →
      ∃ ns, LinInv (ulLiLoop sty (st, cur) f).1 X Y (seg ++ ns)
          ((ulLiLoop sty (st, cur) f).2) ∧
        ns.map PNode.blk = liBlks sty f
  | HtmlForest.nil, st, X, Y, seg, cur, h => ⟨[], by simpa using h, rfl⟩
  | HtmlForest.cons ch t, st, X, Y, seg, cur, h => by
    match ch with
    | HtmlNode.text s => exact lin_ulLiLoop sty t st X Y seg cur h
    | HtmlNode.elem nm src cs =>
      simp only [ulLiLoop, liBlks]
      split_ifs with hli
      · obtain ⟨hret, hnx, hL1⟩ := lin_ipa h
          (getText (HtmlNode.elem nm src cs)) (some sty)
        obtain ⟨ns, hL2, hblk⟩ := lin_ulLiLoop sty t
          (insertParagraphAfter st cur (getText (HtmlNode.elem nm src cs))
            (some sty)).1 X Y
          (seg ++ [⟨st.nextId, paraOf (some sty) (getText (HtmlNode.elem nm src cs))⟩])
          st.nextId hL1
        refine ⟨⟨st.nextId,
          paraOf (some sty) (getText (HtmlNode.elem nm src cs))⟩ :: ns, ?_, ?_⟩
        · rw [show seg ++ (⟨st.nextId,
            paraOf (some sty) (getText (HtmlNode.elem nm src cs))⟩ :: ns)
            = (seg ++ [⟨st.nextId,
              paraOf (some sty) (getText (HtmlNode.elem nm src cs))⟩]) ++ ns by simp]
          exact hL2
        · simp [hblk]
      · exact lin_ulLiLoop sty t st X Y seg cur h

theorem elOk_noimg {nm : Str} {src : Option Str} {cs : HtmlForest}
    (hok : elOk (HtmlNode.elem nm src cs) = true)
    (hn : ¬(lowerStr nm = "ul".data ∨ lowerStr nm = "ol".data
      ∨ lowerStr nm = "br".data)) :
    hasDirectImg cs = false := by
  have h0 : (if lowerStr nm = "ul".data ∨ lowerStr nm = "ol".data
      ∨ lowerStr nm = "br".data then true else !hasDirectImg cs) = true := hok
  rw [if_neg hn] at h0
  simpa using h0

theorem lin_insertHtml_single {fetch : Str → Option Str} {st : DState}
    {X Y seg : List PNode} {cur : Nat} (h : LinInv st X Y seg cur)
    (el : HtmlNode) (hok : elOk el = true) :
    ∃ ns, LinInv (insertHtml fetch st cur (HtmlForest.cons el HtmlForest.nil)).1 X Y
        (seg ++ ns)
        ((insertHtml fetch st cur (HtmlForest.cons el HtmlForest.nil)).2) ∧
      ns.map PNode.blk = elemBlks el := by
  match el with
  | HtmlNode.text s =>
    by_cases hstrip : (pyStrip s).isEmpty = true
    · have hred : insertHtml fetch st cur
          (HtmlForest.cons (HtmlNode.text s) HtmlForest.nil) = (st, cur) := by
        simp [insertHtml, insertHtmlAux, hstrip]
      rw [hred]
      exact ⟨[], by simpa using h, by simp [elemBlks, hstrip]⟩
    · have hred : insertHtml fetch st cur
          (HtmlForest.cons (HtmlNode.text s) HtmlForest.nil)
          = (addRun (insertParagraphAfter st cur [] none).1
              (insertParagraphAfter st cur [] none).2 (mkRun s),
            (insertParagraphAfter st cur [] none).2) := by
        simp [insertHtml, insertHtmlAux, hstrip, awi]
      rw [hred]
      obtain ⟨hret, hnx, hL1⟩ := lin_ipa h [] none
      have hL1' : LinInv (insertParagraphAfter st cur [] none).1 X Y
          (seg ++ [⟨st.nextId, Block.para none []⟩]) st.nextId := hL1
      obtain ⟨hn2, hL2⟩ := lin_addRun hL1' (mkRun s)
      exact ⟨[⟨st.nextId, Block.para none ([] ++ [mkRun s])⟩], hL2,
        by simp [elemBlks, hstrip]⟩
  | HtmlNode.elem nm src cs =>
    by_cases h1 : lowerStr nm = "h3".data
    · have hn : ¬(lowerStr nm = "ul".data ∨ lowerStr nm = "ol".data
          ∨ lowerStr nm = "br".data) := by
        rw [h1]
        decide
      have himg := elOk_noimg hok hn
      have hred : insertHtml fetch st cur
          (HtmlForest.cons (HtmlNode.elem nm src cs) HtmlForest.nil)
          = awi fetch st cur (Sum.inr (HtmlNode.elem nm src cs))
            (some "Heading 3".data) := by
        simp [insertHtml, insertHtmlAux, h1]
      rw [hred]
      obtain ⟨hL, hcur⟩ := lin_awi_elem h nm src cs (some "Heading 3".data) himg
      rw [hcur]
      exact ⟨[⟨st.nextId, Block.para (some "Heading 3".data) (inlineRuns cs)⟩], hL,
        by simp [elemBlks, h1]⟩
    · by_cases h2 : lowerStr nm = "p".data
      · have hn : ¬(lowerStr nm = "ul".data ∨ lowerStr nm = "ol".data
            ∨ lowerStr nm = "br".data) := by
          rw [h2]
          decide
        have himg := elOk_noimg hok hn
        have hred : insertHtml fetch st cur
            (HtmlForest.cons (HtmlNode.elem nm src cs) HtmlForest.nil)
            = awi fetch st cur (Sum.inr (HtmlNode.elem nm src cs))
              (some "Normal".data) := by
          simp [insertHtml, insertHtmlAux, h1, h2]
        rw [hred]
        obtain ⟨hL, hcur⟩ := lin_awi_elem h nm src cs (some "Normal".data) himg
        rw [hcur]
        exact ⟨[⟨st.nextId, Block.para (some "Normal".data) (inlineRuns cs)⟩], hL,
          by simp [elemBlks, h1, h2]⟩
      · by_cases h3ul : lowerStr nm = "ul".data ∨ lowerStr nm = "ol".data
        · have hred : insertHtml fetch st cur
              (HtmlForest.cons (HtmlNode.elem nm src cs) HtmlForest.nil)
              = ulLiLoop (if lowerStr nm = "ul".data then "List Bullet".data
                  else "List Number".data) (st, cur) cs := by
            simp [insertHtml, insertHtmlAux, h1, h2, h3ul]
          rw [hred]
          obtain ⟨ns, hL, hblk⟩ := lin_ulLiLoop
            (if lowerStr nm = "ul".data then "List Bullet".data
              else "List Number".data) cs st X Y seg cur h
          exact ⟨ns, hL, by rw [hblk]; simp [elemBlks, h1, h2, h3ul]⟩
        · by_cases h4 : lowerStr nm = "br".data
          · have hred : insertHtml fetch st cur
                (HtmlForest.cons (HtmlNode.elem nm src cs) HtmlForest.nil)
                = insertParagraphAfter st cur [] none := by
              simp [insertHtml, insertHtmlAux, h1, h2, h3ul, h4]
            rw [hred]
            obtain ⟨hret, hnx, hL1⟩ := lin_ipa h [] none
            rw [hret]
            exact ⟨[⟨st.nextId, Block.para none []⟩], hL1,
              by simp [elemBlks, h1, h2, h3ul, h4]⟩
          · have hn : ¬(lowerStr nm = "ul".data ∨ lowerStr nm = "ol".data
                ∨ lowerStr nm = "br".data) := by
              intro hc
              rcases hc with hc | hc | hc
              · exact h3ul (Or.inl hc)
              · exact h3ul (Or.inr hc)
              · exact h4 hc
            have himg := elOk_noimg hok hn
            have hred : insertHtml fetch st cur
                (HtmlForest.cons (HtmlNode.elem nm src cs) HtmlForest.nil)
                = awi fetch st cur (Sum.inr (HtmlNode.elem nm src cs))
                  (some "Normal".data) := by
              simp [insertHtml, insertHtmlAux, h1, h2, h3ul, h4]
            rw [hred]
            obtain ⟨hL, hcur⟩ := lin_awi_elem h nm src cs (some "Normal".data) himg
            rw [hcur]
            exact ⟨[⟨st.nextId, Block.para (some "Normal".data) (inlineRuns cs)⟩], hL,
              by simp [elemBlks, h1, h2, h3ul, h4]⟩

theorem lin_sdStep2 {fetch : Str → Option Str} {st : DState} {X Y seg : List PNode}
    {cur : Nat} (h : LinInv st X Y seg cur) (ob : Option HtmlForest)
    (hok : (match ob with
      | none => true
      | some HtmlForest.nil => true
      | some (HtmlForest.cons el HtmlForest.nil) => elOk el
      | some _ => false) = true) :
    ∃ ns, LinInv (match ob with
        | none => (st, cur)
        | some nodes =>
          insertParagraphAfter (insertHtml fetch st cur nodes).1
            (insertHtml fetch st cur nodes).2 [] none).1 X Y (seg ++ ns)
        ((match ob with
          | none => (st, cur)
          | some nodes =>
            insertParagraphAfter (insertHtml fetch st cur nodes).1
              (insertHtml fetch st cur nodes).2 [] none).2) ∧
      ns.map PNode.blk = contentBlks ob := by
  match ob with
  | none => exact ⟨[], by simpa using h, rfl⟩
  | some HtmlForest.nil =>
    show ∃ ns, LinInv (insertParagraphAfter st cur [] none).1 X Y (seg ++ ns)
        ((insertParagraphAfter st cur [] none).2) ∧
      ns.map PNode.blk = contentBlks (some HtmlForest.nil)
    obtain ⟨hret, hnx, hL1⟩ := lin_ipa h [] none
    rw [hret]
    exact ⟨[⟨st.nextId, Block.para none []⟩], hL1, by simp [contentBlks, forestBlks]⟩
  | some (HtmlForest.cons el HtmlForest.nil) =>
    show ∃ ns, LinInv (insertParagraphAfter
        (insertHtml fetch st cur (HtmlForest.cons el HtmlForest.nil)).1
        (insertHtml fetch st cur (HtmlForest.cons el HtmlForest.nil)).2 [] none).1
        X Y (seg ++ ns)
        ((insertParagraphAfter
          (insertHtml fetch st cur (HtmlForest.cons el HtmlForest.nil)).1
          (insertHtml fetch st cur (HtmlForest.cons el HtmlForest.nil)).2 [] none).2) ∧
      ns.map PNode.blk = contentBlks (some (HtmlForest.cons el HtmlForest.nil))
    have hokel : elOk el = true := hok
    obtain ⟨ns1, hL1, hblk1⟩ := lin_insertHtml_single h el hokel
    obtain ⟨hret, hnx, hL2⟩ := lin_ipa hL1 [] none
    rw [hret]
    refine ⟨ns1 ++ [⟨(insertHtml fetch st cur
      (HtmlForest.cons el HtmlForest.nil)).1.nextId, Block.para none []⟩], ?_, ?_⟩
    · rw [show seg ++ (ns1 ++ [⟨(insertHtml fetch st cur
        (HtmlForest.cons el HtmlForest.nil)).1.nextId, Block.para none []⟩])
        = (seg ++ ns1) ++ [⟨(insertHtml fetch st cur
          (HtmlForest.cons el HtmlForest.nil)).1.nextId, Block.para none []⟩] by simp]
      exact hL2
    · simp [contentBlks, forestBlks, hblk1]
  | some (HtmlForest.cons el (HtmlForest.cons el2 t)) =>
    simp at hok

theorem lin_sdBlocksLoop {fetch : Str → Option Str} :
    ∀ (blocks : List ContentBlock) (st : DState) (X Y seg : List PNode) (cur : Nat),
      LinInv st X Y seg cur → (∀ b ∈ blocks, blockContentOk b = true) →
      ∃ ns, LinInv (sdBlocksLoop fetch st cur blocks).1 X Y (seg ++ ns)
          ((sdBlocksLoop fetch st cur blocks).2) ∧
        ns.map PNode.blk = sdBlks blocks := by
  intro blocks
  induction blocks with
  | nil => intro st X Y seg cur h _; exact ⟨[], by simpa using h, rfl⟩
  | cons b rest ih =>
    intro st X Y seg cur h hok
    have hokb : blockContentOk b = true := hok b (List.mem_cons_self b rest)
    have hokr : ∀ x ∈ rest, blockContentOk x = true :=
      fun x hx => hok x (List.mem_cons_of_mem b hx)
    by_cases hsub : b.subtitle.isEmpty = true
    · have hred : sdBlocksLoop fetch st cur (b :: rest)
          = sdBlocksLoop fetch
            (match b.content with
              | none => (st, cur)
              | some nodes =>
                insertParagraphAfter (insertHtml fetch st cur nodes).1
                  (insertHtml fetch st cur nodes).2 [] none).1
            (match b.content with
              | none => (st, cur)
              | some nodes =>
                insertParagraphAfter (insertHtml fetch st cur nodes).1
                  (insertHtml fetch st cur nodes).2 [] none).2 rest := by
        simp [sdBlocksLoop, hsub]
      rw [hred]
      obtain ⟨ns2, hL2, hblk2⟩ := lin_sdStep2 h b.content hokb
      obtain ⟨ns3, hL3, hblk3⟩ := ih _ X Y _ _ hL2 hokr
      refine ⟨ns2 ++ ns3, ?_, ?_⟩
      · rw [show seg ++ (ns2 ++ ns3) = (seg ++ ns2) ++ ns3 by simp]
        exact hL3
      · simp [sdBlks, blockBlks, hsub, hblk2, hblk3]
    · obtain ⟨hret1, hnx1, hL1⟩ := lin_ipa h b.subtitle (some "Heading 3".data)
      have hred : sdBlocksLoop fetch st cur (b :: rest)
          = sdBlocksLoop fetch
            (match b.content with
              | none => insertParagraphAfter st cur b.subtitle (some "Heading 3".data)
              | some nodes =>
                insertParagraphAfter
                  (insertHtml fetch
                    (insertParagraphAfter st cur b.subtitle (some "Heading 3".data)).1
                    (insertParagraphAfter st cur b.subtitle
                      (some "Heading 3".data)).2 nodes).1
                  (insertHtml fetch
                    (insertParagraphAfter st cur b.subtitle (some "Heading 3".data)).1
                    (insertParagraphAfter st cur b.subtitle
                      (some "Heading 3".data)).2 nodes).2 [] none).1
            (match b.content with
              | none => insertParagraphAfter st cur b.subtitle (some "Heading 3".data)
              | some nodes =>
                insertParagraphAfter
                  (insertHtml fetch
                    (insertParagraphAfter st cur b.subtitle (some "Heading 3".data)).1
                    (insertParagraphAfter st cur b.subtitle
                      (some "Heading 3".data)).2 nodes).1
                  (insertHtml fetch
                    (insertParagraphAfter st cur b.subtitle (some "Heading 3".data)).1
                    (insertParagraphAfter st cur b.subtitle
                      (some "Heading 3".data)).2 nodes).2 [] none).2 rest := by
        simp [sdBlocksLoop, hsub]
      rw [hred]
      obtain ⟨ns2, hL2, hblk2⟩ := lin_sdStep2 hL1 b.content hokb
      obtain ⟨ns3, hL3, hblk3⟩ := ih _ X Y _ _ hL2 hokr
      refine ⟨⟨st.nextId, paraOf (some "Heading 3".data) b.subtitle⟩ :: (ns2 ++ ns3),
        ?_, ?_⟩
      · rw [show seg ++ (⟨st.nextId, paraOf (some "Heading 3".data) b.subtitle⟩
          :: (ns2 ++ ns3))
          = ((seg ++ [⟨st.nextId, paraOf (some "Heading 3".data) b.subtitle⟩])
            ++ ns2) ++ ns3 by simp]
        exact hL3
      · simp [sdBlks, blockBlks, hsub, hblk2, hblk3]

/-- C8 (corrected): for a non-empty `service_definition`, the composer used by
`generate_service_description` (`_insert_full_content_block`, not the dead
`_insert_service_definition`) renders, after the linear core, a
`Service Definition` Heading-2 paragraph and then each block in order as its
optional Heading-3 subtitle followed by its HTML-rendered content and a
spacer; the block's `images` and `table` fields are never consulted, so no
image or table supplied there appears in the composed document (see the
counterexample).  Proved for blocks whose content has at most one top-level
element describable by `elemBlks` (`blockContentOk`). -/
theorem service_definition_rendering {fetch : Str → Option Str} {st : DState}
    {X Y seg : List PNode} {cur : Nat} (h : LinInv st X Y seg cur)
    (title desc : Str) (features benefits : List Str) (sdef : List ContentBlock)
    (hne : sdef ≠ []) (hok : ∀ b ∈ sdef, blockContentOk b = true) :
    (insertFullContentBlock fetch st (some cur) title desc features benefits
        sdef).1.body.map PNode.blk
      = X.map PNode.blk ++ seg.map PNode.blk ++ coreBlks title desc features benefits
        ++ paraOf (some "Heading 2".data) "Service Definition".data :: sdBlks sdef
        ++ Y.map PNode.blk := by
  obtain ⟨ns, hL, hblk⟩ := lin_icbCore h title desc features benefits
  obtain ⟨e6, e6n, hL6⟩ := lin_addParaStep
    (some (icbCore st (some cur) title desc features benefits).2) rfl hL
    "Service Definition".data (some "Heading 2".data)
  obtain ⟨ns2, hL7, hblk2⟩ := lin_sdBlocksLoop sdef
    (addParaStep (icbCore st (some cur) title desc features benefits).1
      (some (icbCore st (some cur) title desc features benefits).2)
      "Service Definition".data (some "Heading 2".data)).1 X Y
    ((seg ++ ns) ++ [⟨(icbCore st (some cur) title desc features benefits).1.nextId,
      paraOf (some "Heading 2".data) "Service Definition".data⟩])
    ((icbCore st (some cur) title desc features benefits).1.nextId) hL6 hok
  obtain ⟨hbody7, _, _⟩ := hL7
  cases sdef with
  | nil => exact absurd rfl hne
  | cons b rest =>
    have hfin : (insertFullContentBlock fetch st (some cur) title desc features
        benefits (b :: rest)).1.body
        = X ++ (((seg ++ ns)
            ++ [⟨(icbCore st (some cur) title desc features benefits).1.nextId,
              paraOf (some "Heading 2".data) "Service Definition".data⟩]) ++ ns2)
          ++ Y := hbody7
    rw [hfin]
    simp [hblk, hblk2]

/-- Counterexample to the literal C8 claim: a service-definition block
supplying one (fetchable) image and one table composes — via
`_insert_full_content_block`, the loop `generate_service_description`
actually runs — into a document containing no image run and no table at
all. -/
theorem sd_images_table_counterexample :
    ((insertFullContentBlock (fun _ => some "PIC".data)
        ⟨[⟨0, Block.para none []⟩], 1⟩ (some 0) "T".data "D".data [] []
        [⟨[], none, ["http://img".data], some [["x".data]]⟩]).1.body.any
      (fun n => match n.blk with
        | Block.table _ => true
        | Block.para _ rs => rs.any (fun r => r.img.isSome))) = false := by
  decide

/-- Witness: one content block with a non-empty subtitle and a one-node HTML
content, composed into a one-paragraph document. -/
theorem service_definition_rendering_witness :
    (insertFullContentBlock (fun _ => none) ⟨[⟨0, Block.para none []⟩], 1⟩ (some 0)
        "T".data "D".data [] []
        [⟨"S".data, some (HtmlForest.cons (HtmlNode.text "hi".data) HtmlForest.nil),
          [], none⟩]).1.body.map PNode.blk
      = ([] : List PNode).map PNode.blk
        ++ [(⟨0, Block.para none []⟩ : PNode)].map PNode.blk
        ++ coreBlks "T".data "D".data [] []
        ++ paraOf (some "Heading 2".data) "Service Definition".data
          :: sdBlks [⟨"S".data,
            some (HtmlForest.cons (HtmlNode.text "hi".data) HtmlForest.nil),
            [], none⟩]
        ++ ([] : List PNode).map PNode.blk :=
  @service_definition_rendering (fun _ => none) ⟨[⟨0, Block.para none []⟩], 1⟩ [] []
    [⟨0, Block.para none []⟩] 0 ⟨rfl, by decide, [], ⟨0, Block.para none []⟩, rfl, rfl⟩
    "T".data "D".data [] []
    [⟨"S".data, some (HtmlForest.cons (HtmlNode.text "hi".data) HtmlForest.nil),
      [], none⟩]
    (List.cons_ne_nil _ _) (by decide)

/-- Witness: the draft relation at a concrete tuple. -/
theorem buildKey_draft_relation_witness :
    ∃ p : Str,
      build_service_blob_key "Cloud Backup".data "SERVICE DESC".data "15".data "2".data
          "docx".data false = p ++ '.' :: "docx".data ∧
      build_service_blob_key "Cloud Backup".data "SERVICE DESC".data "15".data "2".data
          "docx".data true = p ++ "_draft".data ++ '.' :: "docx".data :=
  buildKey_draft_relation "Cloud Backup".data "SERVICE DESC".data "15".data "2".data
    "docx".data (by decide) (by decide)

end GCloud
